import Mathlib

/-!
# MD5All: a streaming, bounded-concurrency MD5 pipeline

A shallow embedding of `MD5All` from `main.go` as an interleaving transition
system.  The goroutines of one iteration of the returned `iter.Seq2` are

* the walker (`filepath.Walk` with the callback of lines 59-72),
* `numDigesters` digesters (lines 79-92),
* the closer (`g.Wait(); close(c)`, lines 94-97),
* the iterator body itself (the drain loop, lines 99-111).

Every transition performs at most one action on shared state (a channel
rendezvous, a channel close, the errgroup bookkeeping of a returning
goroutine) together with the local code that follows it up to the next
blocking point.  The scheduler is the list of labels a run is driven with.

External collaborators are parameters: the callback invocations
`filepath.Walk` makes, `os.ReadFile`, `md5.Sum` and the consumer `yield`.

Modelling choices:

* `filepath.Walk` is seen through its callback: a file system determines the
  list of invocations `(path, info, err)` Walk makes while the callback
  returns nil; the callback of lines 59-72 returns non-nil only on `err != nil`
  or on cancellation, and Walk then stops and returns that error.  File-system
  errors are never `context.Canceled` (nor `filepath.SkipDir`).
* `paths` and `c` are unbuffered: a send and a receive are one transition.
* `done` is the `Done` channel of the errgroup context, the only context the
  goroutines select on; it is closed by the first recorded error, by
  `g.Wait()` and by the `cancel` of line 49 (through its parent).
* A goroutine counts as finished once the errgroup wrapper has run
  (`errOnce.Do`, `wg.Done`), which is one transition.
* The consumer is a function of the history of its calls.
-/

namespace MD5Pipeline

abbrev Path := String
abbrev Bytes := List Nat
abbrev Digest := List Nat

/-- Error code of a failed file-system operation (`os.Lstat`, reading a
directory, `os.ReadFile`). -/
abbrev Errno := Nat

/-- Errors a goroutine of the pipeline can return: a file-system error, or
`context.Canceled` as returned by `ctx.Err()`. -/
inductive Err where
  | io (code : Errno)
  | canceled
  deriving DecidableEq, Repr

/-- What the walk callback is handed for one path: `err != nil`, or an
`info` whose mode is regular or not. -/
inductive Entry where
  | regular
  | other
  | failed (code : Errno)
  deriving DecidableEq, Repr

/-- One invocation of the walk callback by `filepath.Walk`. -/
structure WalkEvent where
  path : Path
  entry : Entry
  deriving DecidableEq, Repr

/-- The `result` struct of `main.go`. -/
structure result where
  path : Path
  sum : Digest
  deriving DecidableEq, Repr

/-- The file system and the digest function the pipeline runs against.
`walk root` is the sequence of callback invocations `filepath.Walk root`
makes as long as the callback keeps returning `nil`. -/
structure World where
  walk : Path → List WalkEvent
  readFile : Path → Except Errno Bytes
  md5Sum : Bytes → Digest

/-- One iteration of `MD5All(ctx, root)`: the world, the root, and the
consumer.  `yield h` is the value the consumer returns on the call that
completes the history `h` of its calls (so `h` ends with the current pair). -/
structure Call where
  world : World
  root : Path
  yield : List result → Bool

/-- Control point of the walker goroutine. -/
inductive WalkerPc where
  | walking                       -- inside `filepath.Walk`, between callbacks
  | sending (p : Path)            -- blocked in the `select` of lines 66-70
  | fin (e : Option Err)          -- function returned `e`, `paths` closed
  | exited (e : Option Err)       -- errgroup has recorded the return
  deriving DecidableEq, Repr

/-- Control point of one digester goroutine. -/
inductive DigPc where
  | recv                          -- blocked in `range paths`
  | reading (p : Path)            -- inside `os.ReadFile(p)`
  | sending (r : result)          -- blocked in the `select` of lines 85-89
  | exited (e : Option Err)       -- returned `e`, errgroup has recorded it
  deriving DecidableEq, Repr

/-- Control point of the goroutine of lines 94-97. -/
inductive CloserPc where
  | waiting                       -- blocked in `g.Wait()`
  | closing                       -- about to `close(c)`
  | exited
  deriving DecidableEq, Repr

/-- Control point of the iterator body (the caller's goroutine). -/
inductive MainPc where
  | recv                          -- blocked in `range c`
  | yielding (r : result)         -- received `r`, about to call `yield`
  | cancelling                    -- `yield` returned false, about to `cancel()`
  | waiting                       -- `c` was closed, about to `g.Wait()`
  | returned
  deriving DecidableEq, Repr

def numDigesters : Nat := 20

/-- The shared and per-goroutine state of one iteration. -/
structure State where
  /-- the `ctx` argument of `MD5All` has been cancelled by the caller -/
  callerDone : Bool
  /-- `ctx.Done()` of the errgroup context (the `ctx` of lines 54-111) is closed -/
  done : Bool
  /-- the error recorded by the errgroup (`g.err`), first one wins -/
  err : Option Err
  /-- number of callback invocations `filepath.Walk` has made so far -/
  next : Nat
  walker : WalkerPc
  /-- `paths` has been closed -/
  pathsClosed : Bool
  digs : List DigPc
  closer : CloserPc
  /-- `c` has been closed -/
  cClosed : Bool
  main : MainPc
  /-- the calls made to `yield` so far, oldest first -/
  yields : List result
  deriving DecidableEq, Repr

def WalkerPc.isExited : WalkerPc → Bool
  | .exited _ => true
  | _ => false

def DigPc.isExited : DigPc → Bool
  | .exited _ => true
  | _ => false

/-- Every goroutine started with `g.Go` has returned: `g.Wait()` does not block. -/
def State.allDone (s : State) : Bool :=
  s.walker.isExited && s.digs.all DigPc.isExited

/-- The errgroup wrapper around a returning goroutine (`errOnce.Do`): the
first non-nil error is stored and cancels the group context, later ones are
dropped. -/
def State.record (s : State) (e : Option Err) : State :=
  match e, s.err with
  | some x, none => { s with err := some x, done := true }
  | _, _ => s

/-- Scheduler choices. -/
inductive Label where
  | callerCancel                  -- the caller cancels the `ctx` it passed in
  | walkNext                      -- Walk invokes the callback, or returns
  | handoff (j : Nat)             -- `paths <- path` meets digester `j`
  | walkCancel                    -- walker takes `<-ctx.Done()`
  | walkDone                      -- errgroup records the walker's return
  | recvClosed (j : Nat)          -- digester `j` sees `paths` closed
  | read (j : Nat)                -- `os.ReadFile` returns in digester `j`
  | deliver (j : Nat)             -- `c <- result` of digester `j` meets `range c`
  | digCancel (j : Nat)           -- digester `j` takes `<-ctx.Done()`
  | closerWait                    -- `g.Wait()` returns in the closer
  | closerClose                   -- `close(c)`
  | yieldCall                     -- the iterator calls `yield`
  | mainCancel                    -- `cancel(); return` of lines 101-102
  | mainClosed                    -- `range c` ends
  | mainWait                      -- `g.Wait()` of line 108 returns, then return
  deriving DecidableEq, Repr

/-- State at the start of the iterator body: line 49 derives the pipeline
context from `context.Background()`, so nothing of the `ctx` argument
enters it. -/
def init : State :=
  { callerDone := false, done := false, err := none, next := 0,
    walker := .walking, pathsClosed := false,
    digs := List.replicate numDigesters .recv,
    closer := .waiting, cClosed := false, main := .recv, yields := [] }

/-- One transition; `none` when the label is not enabled. -/
def step (k : Call) (l : Label) (s : State) : Option State :=
  match l with
  | .callerCancel =>
    if s.callerDone then none else some { s with callerDone := true }
  | .walkNext =>
    match s.walker with
    | .walking =>
      match (k.world.walk k.root)[s.next]? with
      | none => some { s with walker := .fin none, pathsClosed := true }
      | some ev =>
        match ev.entry with
        | .failed c =>
          some { s with next := s.next + 1, walker := .fin (some (.io c)), pathsClosed := true }
        | .other => some { s with next := s.next + 1 }
        | .regular => some { s with next := s.next + 1, walker := .sending ev.path }
    | _ => none
  | .handoff j =>
    match s.walker, s.digs[j]? with
    | .sending p, some .recv =>
      some { s with walker := .walking, digs := s.digs.set j (.reading p) }
    | _, _ => none
  | .walkCancel =>
    match s.walker with
    | .sending _ =>
      if s.done then
        some { s with walker := .fin (some .canceled), pathsClosed := true }
      else none
    | _ => none
  | .walkDone =>
    match s.walker with
    | .fin e => some { s.record e with walker := .exited e }
    | _ => none
  | .recvClosed j =>
    match s.digs[j]? with
    | some .recv =>
      if s.pathsClosed then some { s with digs := s.digs.set j (.exited none) } else none
    | _ => none
  | .read j =>
    match s.digs[j]? with
    | some (.reading p) =>
      match k.world.readFile p with
      | .error c =>
        some { s.record (some (.io c)) with digs := s.digs.set j (.exited (some (.io c))) }
      | .ok data =>
        some { s with digs := s.digs.set j (.sending ⟨p, k.world.md5Sum data⟩) }
    | _ => none
  | .deliver j =>
    match s.main, s.digs[j]? with
    | .recv, some (.sending r) =>
      some { s with main := .yielding r, digs := s.digs.set j .recv }
    | _, _ => none
  | .digCancel j =>
    match s.digs[j]? with
    | some (.sending _) =>
      if s.done then
        some { s.record (some .canceled) with digs := s.digs.set j (.exited (some .canceled)) }
      else none
    | _ => none
  | .closerWait =>
    match s.closer with
    | .waiting =>
      if s.allDone then some { s with closer := .closing, done := true } else none
    | _ => none
  | .closerClose =>
    match s.closer with
    | .closing => some { s with closer := .exited, cClosed := true }
    | _ => none
  | .yieldCall =>
    match s.main with
    | .yielding r =>
      if k.yield (s.yields ++ [r]) then
        some { s with main := .recv, yields := s.yields ++ [r] }
      else
        some { s with main := .cancelling, yields := s.yields ++ [r] }
    | _ => none
  | .mainCancel =>
    match s.main with
    | .cancelling => some { s with main := .returned, done := true }
    | _ => none
  | .mainClosed =>
    match s.main with
    | .recv => if s.cClosed then some { s with main := .waiting } else none
    | _ => none
  | .mainWait =>
    match s.main with
    | .waiting =>
      if s.allDone then some { s with main := .returned, done := true } else none
    | _ => none

/-- Run a schedule from a state. -/
def runFrom (k : Call) : List Label → State → Option State
  | [], s => some s
  | l :: ls, s =>
    match step k l s with
    | none => none
    | some s' => runFrom k ls s'

/-- Run a schedule from the initial state. -/
def run (k : Call) (ls : List Label) : Option State := runFrom k ls init

/-- The transitions of `step`, one constructor per branch. -/
inductive Tr (k : Call) (s : State) : State → Prop where
  | callerCancel : s.callerDone = false → Tr k s { s with callerDone := true }
  | walkEnd : s.walker = .walking → (k.world.walk k.root)[s.next]? = none →
      Tr k s { s with walker := .fin none, pathsClosed := true }
  | walkFail (ev : WalkEvent) (c : Errno) : s.walker = .walking →
      (k.world.walk k.root)[s.next]? = some ev → ev.entry = .failed c →
      Tr k s { s with next := s.next + 1, walker := .fin (some (.io c)), pathsClosed := true }
  | walkOther (ev : WalkEvent) : s.walker = .walking →
      (k.world.walk k.root)[s.next]? = some ev → ev.entry = .other →
      Tr k s { s with next := s.next + 1 }
  | walkRegular (ev : WalkEvent) : s.walker = .walking →
      (k.world.walk k.root)[s.next]? = some ev → ev.entry = .regular →
      Tr k s { s with next := s.next + 1, walker := .sending ev.path }
  | handoff (j : Nat) (p : Path) : s.walker = .sending p → s.digs[j]? = some .recv →
      Tr k s { s with walker := .walking, digs := s.digs.set j (.reading p) }
  | walkCancel (p : Path) : s.walker = .sending p → s.done = true →
      Tr k s { s with walker := .fin (some .canceled), pathsClosed := true }
  | walkDone (e : Option Err) : s.walker = .fin e →
      Tr k s { s.record e with walker := .exited e }
  | recvClosed (j : Nat) : s.digs[j]? = some .recv → s.pathsClosed = true →
      Tr k s { s with digs := s.digs.set j (.exited none) }
  | readFail (j : Nat) (p : Path) (c : Errno) : s.digs[j]? = some (.reading p) →
      k.world.readFile p = .error c →
      Tr k s { s.record (some (.io c)) with digs := s.digs.set j (.exited (some (.io c))) }
  | readOk (j : Nat) (p : Path) (data : Bytes) : s.digs[j]? = some (.reading p) →
      k.world.readFile p = .ok data →
      Tr k s { s with digs := s.digs.set j (.sending ⟨p, k.world.md5Sum data⟩) }
  | deliver (j : Nat) (r : result) : s.main = .recv → s.digs[j]? = some (.sending r) →
      Tr k s { s with main := .yielding r, digs := s.digs.set j .recv }
  | digCancel (j : Nat) (r : result) : s.digs[j]? = some (.sending r) → s.done = true →
      Tr k s { s.record (some .canceled) with digs := s.digs.set j (.exited (some .canceled)) }
  | closerWait : s.closer = .waiting → s.allDone = true →
      Tr k s { s with closer := .closing, done := true }
  | closerClose : s.closer = .closing →
      Tr k s { s with closer := .exited, cClosed := true }
  | yieldMore (r : result) : s.main = .yielding r → k.yield (s.yields ++ [r]) = true →
      Tr k s { s with main := .recv, yields := s.yields ++ [r] }
  | yieldStop (r : result) : s.main = .yielding r → k.yield (s.yields ++ [r]) = false →
      Tr k s { s with main := .cancelling, yields := s.yields ++ [r] }
  | mainCancel : s.main = .cancelling →
      Tr k s { s with main := .returned, done := true }
  | mainClosed : s.main = .recv → s.cClosed = true →
      Tr k s { s with main := .waiting }
  | mainWait : s.main = .waiting → s.allDone = true →
      Tr k s { s with main := .returned, done := true }

def WalkerPc.returned : WalkerPc → Bool
  | .fin _ => true
  | .exited _ => true
  | _ => false

structure Inv (s : State) : Prop where
  len : s.digs.length = numDigesters
  paths : s.pathsClosed = s.walker.returned
  closer : s.closer = .waiting ∨ (s.allDone = true ∧ s.done = true)
  cClosed : s.cClosed = true ↔ s.closer = .exited
  mainWaiting : s.main = .waiting → s.cClosed = true
  mainRet : s.main = .returned → s.done = true
  digExit : ∀ d ∈ s.digs, d.isExited = true → s.pathsClosed = true ∨ s.done = true
  errDone : s.err ≠ none → s.done = true


/-- Labels other than the caller cancelling its own context. -/
def Label.internal : Label → Bool
  | .callerCancel => false
  | _ => true

def WalkerPc.weight : WalkerPc → Nat
  | .walking => 2
  | .sending _ => 7
  | .fin _ => 1
  | .exited _ => 0

def DigPc.weight : DigPc → Nat
  | .recv => 1
  | .reading _ => 5
  | .sending _ => 3
  | .exited _ => 0

def CloserPc.weight : CloserPc → Nat
  | .waiting => 2
  | .closing => 1
  | .exited => 0

def MainPc.weight : MainPc → Nat
  | .recv => 2
  | .yielding _ => 3
  | .cancelling => 1
  | .waiting => 1
  | .returned => 0

/-- A bound on the number of transitions still possible from a state. -/
def fuel (k : Call) (s : State) : Nat :=
  (if s.callerDone then 0 else 1) + 6 * ((k.world.walk k.root).length - s.next)
    + s.walker.weight + (s.digs.map DigPc.weight).sum + s.closer.weight + s.main.weight


/-- Paths of the callback invocations that pass the `IsRegular` test. -/
def regularPaths (evs : List WalkEvent) : List Path :=
  evs.filterMap fun ev => if ev.entry = .regular then some ev.path else none

/-- The paths the walker has enumerated so far: the regular files among the
callback invocations `filepath.Walk` has made. -/
def enumerated (k : Call) (s : State) : List Path :=
  regularPaths ((k.world.walk k.root).take s.next)

/-- The last call to `yield` returned false (early stop by the consumer). -/
def stopped (k : Call) (s : State) : Bool :=
  !s.yields.isEmpty && !k.yield s.yields

def WalkerPc.ioErr : WalkerPc → Bool
  | .fin (some (.io _)) => true
  | .exited (some (.io _)) => true
  | _ => false

def DigPc.ioErr : DigPc → Bool
  | .exited (some (.io _)) => true
  | _ => false

/-- Some goroutine has returned a file-system error (walk or read failure). -/
def State.ioFailed (s : State) : Bool :=
  s.walker.ioErr || s.digs.any DigPc.ioErr

/-- Number of copies of `p` the walker is holding (0 or 1). -/
def WalkerPc.holds (p : Path) : WalkerPc → Nat
  | .sending q => if q = p then 1 else 0
  | _ => 0

/-- Number of copies of `p` a digester is holding (0 or 1). -/
def DigPc.holds (p : Path) : DigPc → Nat
  | .reading q => if q = p then 1 else 0
  | .sending r => if r.path = p then 1 else 0
  | _ => 0

/-- Number of copies of `p` the iterator body is holding (0 or 1). -/
def MainPc.holds (p : Path) : MainPc → Nat
  | .yielding r => if r.path = p then 1 else 0
  | _ => 0

/-- How often `p` occurs among the yielded pairs and the paths in flight. -/
def State.held (s : State) (p : Path) : Nat :=
  (s.yields.map (·.path)).count p + s.main.holds p + s.walker.holds p
    + (s.digs.map (DigPc.holds p)).sum

/-- The pair carries the MD5 sum of the contents of its path. -/
def good (k : Call) (r : result) : Prop :=
  ∃ data, k.world.readFile r.path = .ok data ∧ r.sum = k.world.md5Sum data

/-- The control state of the iterator body agrees with what the consumer
answered last. -/
def StopInv (k : Call) (s : State) : Prop :=
  match s.main with
  | .cancelling => stopped k s = true
  | .returned => stopped k s = true ∨ s.closer = .exited
  | _ => stopped k s = false

/-- Where a cancelled context and a recorded error come from. -/
structure CauseInv (k : Call) (s : State) : Prop where
  done : s.done = true → s.err ≠ none ∨ s.closer ≠ .waiting ∨ stopped k s = true
  fin : s.walker = .fin (some .canceled) → s.ioFailed = true ∨ stopped k s = true
  err : s.err ≠ none → s.ioFailed = true ∨ stopped k s = true
  wexit : ∀ e, s.walker = .exited (some e) → s.err ≠ none
  dexit : ∀ e, .exited (some e) ∈ s.digs → s.err ≠ none

/-- No goroutine has returned an error so far. -/
def clean (s : State) : Prop :=
  s.err = none ∧ ∀ e, s.walker ≠ .fin (some e)

/-- Conservation of paths between the walker and the consumer. -/
structure Acct (k : Call) (s : State) : Prop where
  le : ∀ p, s.held p ≤ (enumerated k s).count p
  eq : clean s → ∀ p, s.held p = (enumerated k s).count p
  atEnd : s.walker = .fin none ∨ s.walker = .exited none →
    (k.world.walk k.root).length ≤ s.next

/-- Every pair on its way to the consumer carries the right digest. -/
structure DigestInv (k : Call) (s : State) : Prop where
  yields : ∀ r ∈ s.yields, good k r
  main : ∀ r, s.main = .yielding r → good k r
  digs : ∀ r, .sending r ∈ s.digs → good k r

/-- Every call to `yield` but the last one returned true. -/
def PrefixInv (k : Call) (s : State) : Prop :=
  ∀ n, 0 < n → n < s.yields.length → k.yield (s.yields.take n) = true

/-- The walk has failed: the walker has returned a file-system error. -/
def State.walkFailed (s : State) : Bool := s.walker.ioErr

/-- A read has failed: some digester has returned a file-system error. -/
def State.readFailed (s : State) : Bool := s.digs.any DigPc.ioErr

/-- One for a path the walker is trying to send. -/
def WalkerPc.charge : WalkerPc → Nat
  | .sending _ => 1
  | _ => 0

/-- One for a path the digester holds, or has dropped on a read failure. -/
def DigPc.charge : DigPc → Nat
  | .reading _ => 1
  | .sending _ => 1
  | .exited (some (.io _)) => 1
  | _ => 0

/-- One for a pair received from `c` and not yet passed to `yield`. -/
def MainPc.charge : MainPc → Nat
  | .yielding _ => 1
  | _ => 0

/-- Pairs yielded, paths in flight and paths dropped by a failed read. -/
def State.charged (s : State) : Nat :=
  s.yields.length + s.main.charge + s.walker.charge + (s.digs.map DigPc.charge).sum

/-- Every yielded pair and every failed read uses up its own enumerated path. -/
def ChargeInv (k : Call) (s : State) : Prop :=
  s.charged ≤ (enumerated k s).length

/-- All invariants of the pipeline. -/
structure AllInv (k : Call) (s : State) : Prop where
  basic : Inv s
  stop : StopInv k s
  cause : CauseInv k s
  acct : Acct k s
  digest : DigestInv k s
  pre : PrefixInv k s

/-- No callback invocation of the walk reports an error. -/
def walkSucceeds (k : Call) : Bool :=
  (k.world.walk k.root).all fun ev =>
    match ev.entry with
    | .failed _ => false
    | _ => true

/-- Every regular file the walk reports can be read. -/
def readsSucceed (k : Call) : Bool :=
  (regularPaths (k.world.walk k.root)).all fun p =>
    match k.world.readFile p with
    | .ok _ => true
    | .error _ => false

/-- The MD5 sum of the contents of `p` (of no contents if `p` cannot be read). -/
def digestOf (k : Call) (p : Path) : Digest :=
  match k.world.readFile p with
  | .ok data => k.world.md5Sum data
  | .error _ => k.world.md5Sum []

/-- One pair per regular file of the tree, with the MD5 sum of its contents. -/
def expected (k : Call) : List result :=
  (regularPaths (k.world.walk k.root)).map fun p => ⟨p, digestOf k p⟩

/-- The digester is inside `os.ReadFile`. -/
def DigPc.isReading : DigPc → Bool
  | .reading _ => true
  | _ => false

/-- What the caller of the iterator has seen of a run: the pairs passed to
`yield`, and whether the iterator function has returned.  The iterator
function has no result and `MD5All` returns only the sequence, so there is
nothing else. -/
structure Observation where
  yielded : List result
  finished : Bool
  deriving DecidableEq, Repr

def observe (s : State) : Observation :=
  { yielded := s.yields, finished := decide (s.main = .returned) }

/-- A recorded file-system error comes from the file system. -/
def IoInv (k : Call) (s : State) : Prop :=
  s.ioFailed = true → walkSucceeds k = false ∨ readsSucceed k = false

/-- What a run on a missing root can look like. -/
structure MissingInv (c : Errno) (s : State) : Prop where
  yields : s.yields = []
  digs : ∀ d ∈ s.digs, d = .recv ∨ d = .exited none
  main : s.main = .recv ∨ s.main = .waiting ∨ s.main = .returned
  walker : (s.walker = .walking ∧ s.next = 0) ∨ s.walker = .fin (some (.io c)) ∨
    s.walker = .exited (some (.io c))
  err : s.walker.isExited = true → s.err = some (.io c)
  noerr : s.walker.isExited = false → s.err = none


/-- State a schedule ends in (the initial state if the schedule is not
executable). -/
def finalOf (k : Call) (ls : List Label) : State := (run k ls).getD init

/-- A stand-in for `md5.Sum` in concrete runs. -/
def toySum (data : Bytes) : Digest := [data.sum % 256]

/-- A directory `r` with two readable regular files. -/
def twoFiles : World where
  walk := fun _ => [⟨"r", .other⟩, ⟨"r/a", .regular⟩, ⟨"r/b", .regular⟩]
  readFile := fun p => if p = "r/a" then .ok [1, 2, 3] else if p = "r/b" then .ok [7] else .error 2
  md5Sum := toySum

/-- A directory `r` with a readable file `r/a` and an unreadable file `r/b`. -/
def oneUnreadable : World where
  walk := fun _ => [⟨"r", .other⟩, ⟨"r/a", .regular⟩, ⟨"r/b", .regular⟩]
  readFile := fun p => if p = "r/a" then .ok [1, 2, 3] else .error 13
  md5Sum := toySum

/-- A directory `r` with one readable regular file. -/
def oneFile : World where
  walk := fun _ => [⟨"r", .other⟩, ⟨"r/a", .regular⟩]
  readFile := fun p => if p = "r/a" then .ok [1, 2, 3] else .error 2
  md5Sum := toySum

/-- The root does not exist: `filepath.Walk` calls the callback once, for the
root, with the `Lstat` error. -/
def missingRoot : World where
  walk := fun root => [⟨root, .failed 2⟩]
  readFile := fun _ => .error 2
  md5Sum := toySum

/-- The root is an empty directory. -/
def emptyDir : World where
  walk := fun root => [⟨root, .other⟩]
  readFile := fun _ => .error 2
  md5Sum := toySum

/-- A consumer that never stops. -/
def drainAll : List result → Bool := fun _ => true

/-- A consumer that stops at its first pair. -/
def stopAtFirst : List result → Bool := fun _ => false

/-- All digesters leave `range paths` on the closed channel, the closer
closes `c`, the iterator body returns through `g.Wait()`. -/
def windUp : List Label :=
  (List.range numDigesters).map Label.recvClosed ++
    [.closerWait, .closerClose, .mainClosed, .mainWait]

/-- Full drain of `twoFiles`: each file goes through its own digester. -/
def drainTwo : List Label :=
  [.walkNext, .walkNext, .handoff 0, .read 0, .deliver 0, .yieldCall,
   .walkNext, .handoff 1, .read 1, .deliver 1, .yieldCall, .walkNext, .walkDone] ++ windUp

/-- Run on a root that does not exist, or on an empty directory. -/
def drainNone : List Label := [.walkNext, .walkNext, .walkDone] ++ windUp

/-- Run on a missing root: the walk fails at once. -/
def drainMissing : List Label := [.walkNext, .walkDone] ++ windUp

/-- Early stop on `oneFile`: the iterator returns right after `cancel()`. -/
def stopEarly : List Label :=
  [.walkNext, .walkNext, .handoff 0, .read 0, .deliver 0, .yieldCall, .mainCancel]

/-- The caller cancels its context first; the file is still processed. -/
def cancelledFirst : List Label :=
  [.callerCancel, .walkNext, .walkNext, .handoff 0, .read 0, .deliver 0, .yieldCall]

/-- On `oneUnreadable`: `r/a` is yielded before `r/b` fails. -/
def failLate : List Label :=
  [.walkNext, .walkNext, .handoff 0, .read 0, .deliver 0, .yieldCall,
   .walkNext, .handoff 1, .read 1, .walkNext, .walkDone] ++
  (List.range numDigesters).filterMap (fun j => if j = 1 then none else some (.recvClosed j)) ++
  [.closerWait, .closerClose, .mainClosed, .mainWait]

/-- On `oneUnreadable`: `r/b` fails while `r/a` is still in its digester,
which then takes the cancellation branch of its `select`. -/
def failEarly : List Label :=
  [.walkNext, .walkNext, .handoff 0, .walkNext, .handoff 1, .read 1, .read 0, .digCancel 0,
   .walkNext, .walkDone] ++
  (List.range numDigesters).filterMap
    (fun j => if j = 0 ∨ j = 1 then none else some (.recvClosed j)) ++
  [.closerWait, .closerClose, .mainClosed, .mainWait]

/-- The same tree drained with the two files going to the digesters in the
other order. -/
def drainTwoSwapped : List Label :=
  [.walkNext, .walkNext, .handoff 5, .walkNext, .handoff 3, .read 3, .deliver 3, .yieldCall,
   .read 5, .deliver 5, .yieldCall, .walkNext, .walkDone] ++ windUp


/-- A directory `r` with a readable file `r/a` and a subdirectory `r/z`
that cannot be listed. -/
def walkBreaks : World where
  walk := fun _ => [⟨"r", .other⟩, ⟨"r/a", .regular⟩, ⟨"r/z", .failed 13⟩]
  readFile := fun p => if p = "r/a" then .ok [1, 2, 3] else .error 2
  md5Sum := toySum

/-- On `walkBreaks`: `r/a` is yielded, then the walk fails. -/
def walkFailsLate : List Label :=
  [.walkNext, .walkNext, .handoff 0, .read 0, .deliver 0, .yieldCall,
   .walkNext, .walkDone] ++ windUp

/-! ## Theorems -/

theorem Tr.of_step {k : Call} {l : Label} {s s' : State} (h : step k l s = some s') :
    Tr k s s' := by
  cases l <;> simp only [step] at h <;> (repeat' split at h) <;>
    first
    | contradiction
    | (cases h; exact Tr.digCancel _ _ (by assumption) (by assumption))
    | (cases h; exact Tr.mainWait (by assumption) (by assumption))
    | (cases h; constructor <;> first | assumption | simp_all)

@[simp] theorem record_callerDone (s : State) (e : Option Err) :
    (s.record e).callerDone = s.callerDone := by
  cases e <;> cases h : s.err <;> simp [State.record, h]
@[simp] theorem record_next (s : State) (e : Option Err) :
    (s.record e).next = s.next := by
  cases e <;> cases h : s.err <;> simp [State.record, h]
@[simp] theorem record_walker (s : State) (e : Option Err) :
    (s.record e).walker = s.walker := by
  cases e <;> cases h : s.err <;> simp [State.record, h]
@[simp] theorem record_pathsClosed (s : State) (e : Option Err) :
    (s.record e).pathsClosed = s.pathsClosed := by
  cases e <;> cases h : s.err <;> simp [State.record, h]
@[simp] theorem record_digs (s : State) (e : Option Err) :
    (s.record e).digs = s.digs := by
  cases e <;> cases h : s.err <;> simp [State.record, h]
@[simp] theorem record_closer (s : State) (e : Option Err) :
    (s.record e).closer = s.closer := by
  cases e <;> cases h : s.err <;> simp [State.record, h]
@[simp] theorem record_cClosed (s : State) (e : Option Err) :
    (s.record e).cClosed = s.cClosed := by
  cases e <;> cases h : s.err <;> simp [State.record, h]
@[simp] theorem record_main (s : State) (e : Option Err) :
    (s.record e).main = s.main := by
  cases e <;> cases h : s.err <;> simp [State.record, h]
@[simp] theorem record_yields (s : State) (e : Option Err) :
    (s.record e).yields = s.yields := by
  cases e <;> cases h : s.err <;> simp [State.record, h]
@[simp] theorem record_done (s : State) (e : Option Err) :
    (s.record e).done = (s.done || (e.isSome && s.err.isNone)) := by
  cases e <;> cases h : s.err <;> simp [State.record, h]
@[simp] theorem record_err_none (s : State) (e : Option Err) :
    (s.record e).err = none ↔ s.err = none ∧ e = none := by
  cases e <;> cases h : s.err <;> simp [State.record, h]

theorem all_exited_get {ds : List DigPc} {j : Nat} {d : DigPc}
    (h : ds.all DigPc.isExited = true) (hj : ds[j]? = some d) : d.isExited = true := by
  rw [List.all_eq_true] at h
  exact h d (List.getElem?_mem hj)

theorem inv_init : Inv init := by
  refine ⟨?_, ?_, ?_, ?_, ?_, ?_, ?_, ?_⟩ <;> simp [MD5Pipeline.init, WalkerPc.returned]
  simp [DigPc.isExited]

theorem done_mono {k : Call} {s s' : State} (h : Tr k s s') (hd : s.done = true) :
    s'.done = true := by
  cases h <;> simp [hd]

theorem pathsClosed_mono {k : Call} {s s' : State} (h : Tr k s s')
    (hd : s.pathsClosed = true) : s'.pathsClosed = true := by
  cases h <;> simp [hd]

theorem allDone_mono {k : Call} {s s' : State} (h : Tr k s s') (hd : s.allDone = true) :
    s'.allDone = true := by
  simp only [State.allDone, Bool.and_eq_true] at hd ⊢
  obtain ⟨hw, hg⟩ := hd
  cases h <;> dsimp only <;> (try simp only [record_walker, record_digs]) <;>
    first
    | exact ⟨hw, hg⟩
    | (exfalso; simp_all [WalkerPc.isExited]; done)
    | (exfalso
       have hx := all_exited_get hg (by assumption)
       simp [DigPc.isExited] at hx)

theorem inv_step {k : Call} {s s' : State} (h : Tr k s s') (I : Inv s) : Inv s' := by
  obtain ⟨i1, i2, i3, i4, i5, i6, i7, i8⟩ := I
  refine ⟨?_, ?_, ?_, ?_, ?_, ?_, ?_, ?_⟩
  · cases h <;> simp [i1]
  · cases h <;> simp_all [WalkerPc.returned]
  · rcases i3 with hc | ⟨ha, hd⟩
    · cases h <;> simp_all [State.allDone]
    · exact Or.inr ⟨allDone_mono h ha, done_mono h hd⟩
  · cases h <;> simp_all
  · cases h <;> simp_all
  · cases h <;> simp_all
  · intro d hd hx
    have key : d ∈ s.digs ∨ (s'.pathsClosed = true ∨ s'.done = true) := by
      cases h <;> simp only [record_digs] at hd <;>
        first
        | exact Or.inl hd
        | (rcases List.mem_or_eq_of_mem_set hd with hm | rfl
           · exact Or.inl hm
           · first
             | (simp [DigPc.isExited] at hx; done)
             | (right; left; assumption)
             | (right; right; simp
                exact (Classical.em (s.err = none)).elim Or.inr (fun he => Or.inl (i8 he))))
    rcases key with hm | hr
    · rcases i7 d hm hx with h1 | h1
      · exact Or.inl (pathsClosed_mono h h1)
      · exact Or.inr (done_mono h h1)
    · exact hr
  · intro he
    by_cases he0 : s.err = none
    · cases h with
      | walkDone e hw => cases e <;> simp_all
      | readFail j p c hd hr => simp [he0]
      | digCancel j r hd hc => simp [he0]
      | _ => exact absurd he0 he
    · exact done_mono h (i8 he0)

theorem sum_map_set {α M : Type} [AddCommMonoid M] (f : α → M) :
    ∀ (l : List α) (j : Nat) (d x : α), l[j]? = some d →
      ((l.set j x).map f).sum + f d = (l.map f).sum + f x := by
  intro l
  induction l with
  | nil => intro j d x h; simp at h
  | cons a t ih =>
    intro j d x h
    cases j with
    | zero =>
      simp at h
      subst h
      simp [add_comm, add_left_comm]
    | succ j =>
      simp at h
      have := ih j d x h
      simp only [List.set_cons_succ, List.map_cons, List.sum_cons]
      rw [add_assoc, this, add_assoc]

theorem weight_set {l : List DigPc} {j : Nat} {d : DigPc} (h : l[j]? = some d) :
    d.weight ≤ (l.map DigPc.weight).sum ∧
      ∀ x, ((l.set j x).map DigPc.weight).sum = (l.map DigPc.weight).sum - d.weight + x.weight := by
  have hmem : d.weight ∈ l.map DigPc.weight := List.mem_map_of_mem _ (List.getElem?_mem h)
  have hle : d.weight ≤ (l.map DigPc.weight).sum :=
    List.single_le_sum (fun _ _ => Nat.zero_le _) _ hmem
  refine ⟨hle, fun x => ?_⟩
  have := sum_map_set DigPc.weight l j d x h
  omega

theorem fuel_step {k : Call} {s s' : State} (h : Tr k s s') : fuel k s' < fuel k s := by
  have getlt : ∀ {ev}, (k.world.walk k.root)[s.next]? = some ev →
      s.next < (k.world.walk k.root).length := fun h => (List.getElem?_eq_some.mp h).1
  cases h
  case walkFail ev e hw hev he =>
    have := getlt hev
    simp only [fuel, hw, WalkerPc.weight]; omega
  case walkOther ev hw hev he =>
    have := getlt hev
    simp only [fuel, hw, WalkerPc.weight]; omega
  case walkRegular ev hw hev he =>
    have := getlt hev
    simp only [fuel, hw, WalkerPc.weight]; omega
  case handoff j p hw hd =>
    obtain ⟨hle, hs⟩ := weight_set hd
    simp only [fuel, hw, hs, WalkerPc.weight, DigPc.weight] at hle ⊢; omega
  case recvClosed j hd hp =>
    obtain ⟨hle, hs⟩ := weight_set hd
    simp only [fuel, hs, DigPc.weight] at hle ⊢; omega
  case readFail j p e hd hr =>
    obtain ⟨hle, hs⟩ := weight_set hd
    simp only [fuel, hs, DigPc.weight, record_callerDone, record_next, record_walker,
      record_digs, record_closer, record_main] at hle ⊢; omega
  case readOk j p data hd hr =>
    obtain ⟨hle, hs⟩ := weight_set hd
    simp only [fuel, hs, DigPc.weight] at hle ⊢; omega
  case deliver j r hm hd =>
    obtain ⟨hle, hs⟩ := weight_set hd
    simp only [fuel, hm, hs, MainPc.weight, DigPc.weight] at hle ⊢; omega
  case digCancel j r hd hc =>
    obtain ⟨hle, hs⟩ := weight_set hd
    simp only [fuel, hs, DigPc.weight, record_callerDone, record_next, record_walker,
      record_digs, record_closer, record_main] at hle ⊢; omega
  all_goals
    simp only [fuel, record_callerDone, record_next, record_walker, record_digs,
      record_closer, record_main, *, WalkerPc.weight, CloserPc.weight, MainPc.weight,
      Bool.false_eq_true, if_false, if_true]
    omega

/-- A property that holds initially and is preserved by every transition
holds after every schedule. -/
theorem runFrom_induct {k : Call} (P : State → Prop)
    (hstep : ∀ s s', P s → Tr k s s' → P s') :
    ∀ (ls : List Label) (s s' : State), P s → runFrom k ls s = some s' → P s' := by
  intro ls
  induction ls with
  | nil => intro s s' hs h; cases h; exact hs
  | cons l ls ih =>
    intro s s' hs h
    simp only [runFrom] at h
    cases hl : step k l s with
    | none => rw [hl] at h; cases h
    | some t =>
      rw [hl] at h
      exact ih t s' (hstep s t hs (Tr.of_step hl)) h

theorem runFrom_fuel {k : Call} : ∀ (ls : List Label) (s s' : State),
    runFrom k ls s = some s' → ls.length + fuel k s' ≤ fuel k s := by
  intro ls
  induction ls with
  | nil => intro s s' h; cases h; simp
  | cons l ls ih =>
    intro s s' h
    simp only [runFrom] at h
    cases hl : step k l s with
    | none => rw [hl] at h; cases h
    | some t =>
      rw [hl] at h
      have h1 := ih t s' h
      have h2 := fuel_step (Tr.of_step hl)
      simp only [List.length_cons]
      omega

theorem exists_not_exited {ds : List DigPc} (h : ds.all DigPc.isExited = false) :
    ∃ j : Nat, ∃ d : DigPc, ds[j]? = some d ∧ d.isExited = false := by
  have : ¬ (∀ d ∈ ds, d.isExited = true) := by
    intro hh
    rw [← List.all_eq_true] at hh
    rw [hh] at h
    cases h
  push_neg at this
  obtain ⟨d, hd, hx⟩ := this
  obtain ⟨j, hj⟩ := List.getElem?_of_mem hd
  exact ⟨j, d, hj, by simpa using hx⟩

/-- While some `g.Go` goroutine is still running and the iterator body is
either receiving or has cancelled the context, one of them can move. -/
theorem workers_progress {k : Call} {s : State} (I : Inv s)
    (hm : s.main = .recv ∨ s.done = true) (hnd : s.allDone = false) :
    ∃ l, l.internal = true ∧ (step k l s).isSome = true := by
  obtain ⟨i1, i2, i3, i4, i5, i6, i7, i8⟩ := I
  cases hall : s.digs.all DigPc.isExited with
  | false =>
    obtain ⟨j, d, hj, hx⟩ := exists_not_exited hall
    cases d with
    | exited e => simp [DigPc.isExited] at hx
    | reading p =>
      refine ⟨.read j, rfl, ?_⟩
      cases hr : k.world.readFile p <;> simp [step, hj, hr]
    | sending r =>
      rcases hm with hm | hm
      · exact ⟨.deliver j, rfl, by simp [step, hj, hm]⟩
      · exact ⟨.digCancel j, rfl, by simp [step, hj, hm]⟩
    | recv =>
      cases hw : s.walker with
      | walking =>
        refine ⟨.walkNext, rfl, ?_⟩
        cases hev : (k.world.walk k.root)[s.next]? with
        | none => simp [step, hw, hev]
        | some ev => cases he : ev.entry <;> simp [step, hw, hev, he]
      | sending p => exact ⟨.handoff j, rfl, by simp [step, hw, hj]⟩
      | fin e => exact ⟨.walkDone, rfl, by simp [step, hw]⟩
      | exited e =>
        have hp : s.pathsClosed = true := by rw [i2, hw]; rfl
        exact ⟨.recvClosed j, rfl, by simp [step, hj, hp]⟩
  | true =>
    cases hw : s.walker with
    | walking =>
      refine ⟨.walkNext, rfl, ?_⟩
      cases hev : (k.world.walk k.root)[s.next]? with
      | none => simp [step, hw, hev]
      | some ev => cases he : ev.entry <;> simp [step, hw, hev, he]
    | fin e => exact ⟨.walkDone, rfl, by simp [step, hw]⟩
    | exited e => simp [State.allDone, hw, hall, WalkerPc.isExited] at hnd
    | sending p =>
      have hpos : 0 < s.digs.length := by rw [i1]; decide
      have hd0 : s.digs[0]? = some s.digs[0] := List.getElem?_eq_getElem hpos
      have hx := all_exited_get hall hd0
      have hdone : s.done = true := by
        rcases i7 _ (List.getElem?_mem hd0) hx with h1 | h1
        · rw [i2, hw] at h1; cases h1
        · exact h1
      exact ⟨.walkCancel, rfl, by simp [step, hw, hdone]⟩

/-- Deadlock freedom: until the iterator has returned and the closer has
closed `c`, some goroutine can take a step. -/
theorem progress {k : Call} {s : State} (I : Inv s)
    (h : s.main ≠ .returned ∨ s.closer ≠ .exited) :
    ∃ l, l.internal = true ∧ (step k l s).isSome = true := by
  have I0 := I
  obtain ⟨i1, i2, i3, i4, i5, i6, i7, i8⟩ := I
  have rest : (s.main = .recv ∨ s.main = .returned) →
      ∃ l, l.internal = true ∧ (step k l s).isSome = true := by
    intro hm
    cases hc : s.closer with
    | closing => exact ⟨.closerClose, rfl, by simp [step, hc]⟩
    | exited =>
      rcases hm with hm | hm
      · exact ⟨.mainClosed, rfl, by simp [step, hm, i4.mpr hc]⟩
      · rcases h with h | h
        · exact absurd hm h
        · exact absurd hc h
    | waiting =>
      cases ha : s.allDone with
      | true => exact ⟨.closerWait, rfl, by simp [step, hc, ha]⟩
      | false =>
        refine workers_progress I0 ?_ ha
        rcases hm with hm | hm
        · exact Or.inl hm
        · exact Or.inr (i6 hm)
  cases hm : s.main with
  | yielding r =>
    by_cases hy : k.yield (s.yields ++ [r]) = true
    · exact ⟨.yieldCall, rfl, by simp [step, hm, hy]⟩
    · exact ⟨.yieldCall, rfl, by simp [step, hm, hy]⟩
  | cancelling => exact ⟨.mainCancel, rfl, by simp [step, hm]⟩
  | waiting =>
    have hc := i4.mp (i5 hm)
    rcases i3 with h3 | ⟨h3, _⟩
    · rw [hc] at h3; cases h3
    · exact ⟨.mainWait, rfl, by simp [step, hm, h3]⟩
  | recv => exact rest (Or.inl hm)
  | returned => exact rest (Or.inr hm)

theorem stopInv_init (k : Call) : StopInv k init := by
  simp [StopInv, MD5Pipeline.init, stopped]

theorem stopInv_step {k : Call} {s s' : State} (h : Tr k s s') (I : Inv s)
    (M : StopInv k s) : StopInv k s' := by
  obtain ⟨i1, i2, i3, i4, i5, i6, i7, i8⟩ := I
  cases h
  case closerClose hc =>
    unfold StopInv at M ⊢
    cases hm : s.main <;> simp_all [stopped]
  all_goals simp_all [StopInv, stopped]

theorem stopped_mono {k : Call} {s s' : State} (h : Tr k s s') (M : StopInv k s)
    (hs : stopped k s = true) : stopped k s' = true := by
  cases h <;> simp_all [StopInv, stopped]



theorem any_set_keep {f : DigPc → Bool} : ∀ {ds : List DigPc} {j : Nat} {d x : DigPc},
    ds[j]? = some d → f d = false → ds.any f = true → (ds.set j x).any f = true := by
  intro ds
  induction ds with
  | nil => intro j d x h; simp at h
  | cons a t ih =>
    intro j d x h hd ha
    cases j with
    | zero =>
      simp at h
      subst h
      simp_all
    | succ j =>
      simp at h
      simp only [List.set_cons_succ, List.any_cons, Bool.or_eq_true] at ha ⊢
      rcases ha with ha | ha
      · exact Or.inl ha
      · exact Or.inr (ih h hd ha)

theorem any_set_new {f : DigPc → Bool} : ∀ {ds : List DigPc} {j : Nat} {d x : DigPc},
    ds[j]? = some d → f x = true → (ds.set j x).any f = true := by
  intro ds
  induction ds with
  | nil => intro j d x h; simp at h
  | cons a t ih =>
    intro j d x h hx
    cases j with
    | zero => simp [hx]
    | succ j =>
      simp at h
      simp only [List.set_cons_succ, List.any_cons, Bool.or_eq_true]
      exact Or.inr (ih h hx)

theorem ioFailed_mono {k : Call} {s s' : State} (h : Tr k s s')
    (hs : s.ioFailed = true) : s'.ioFailed = true := by
  simp only [State.ioFailed, Bool.or_eq_true] at hs ⊢
  cases h
  case handoff j p hw hd =>
    rcases hs with hs | hs
    · simp [hw, WalkerPc.ioErr] at hs
    · exact Or.inr (any_set_keep hd rfl hs)
  case recvClosed j hd hp =>
    exact hs.imp id (any_set_keep hd rfl)
  case readFail j p c hd hr =>
    exact Or.inr (by simpa using any_set_new hd rfl)
  case readOk j p data hd hr =>
    exact hs.imp id (any_set_keep hd rfl)
  case deliver j r hm hd =>
    exact hs.imp id (any_set_keep hd rfl)
  case digCancel j r hd hc =>
    exact hs.imp (by simp) (by simpa using any_set_keep hd rfl)
  case walkDone e hw =>
    refine hs.imp ?_ (by simp)
    rw [hw]
    cases e with
    | none => simp [WalkerPc.ioErr]
    | some x => cases x <;> simp [WalkerPc.ioErr]
  all_goals simp_all [WalkerPc.ioErr]

theorem causeInv_init (k : Call) : CauseInv k init := by
  refine ⟨?_, ?_, ?_, ?_, ?_⟩ <;> simp [MD5Pipeline.init]

theorem cause_done {k : Call} {s s' : State} (h : Tr k s s') (I : Inv s)
    (M : StopInv k s) (C : CauseInv k s) (hd : s'.done = true) :
    s'.err ≠ none ∨ s'.closer ≠ .waiting ∨ stopped k s' = true := by
  have hsm := stopped_mono h M
  obtain ⟨i1, i2, i3, i4, i5, i6, i7, i8⟩ := I
  obtain ⟨c1, c2, c3, c4, c5⟩ := C
  by_cases hd0 : s.done = true
  · rcases c1 hd0 with h1 | h1 | h1
    · left; clear hsm; cases h <;> simp_all
    · right; left; clear hsm; cases h <;> simp_all
    · exact Or.inr (Or.inr (hsm h1))
  · clear hsm
    cases h with
    | walkDone e hw => left; cases e <;> simp_all
    | _ => simp_all [StopInv, stopped]

theorem cause_fin {k : Call} {s s' : State} (h : Tr k s s') (I : Inv s)
    (M : StopInv k s) (C : CauseInv k s) (hw : s'.walker = .fin (some .canceled)) :
    s'.ioFailed = true ∨ stopped k s' = true := by
  have hsm := stopped_mono h M
  have him := ioFailed_mono h
  obtain ⟨i1, i2, i3, i4, i5, i6, i7, i8⟩ := I
  obtain ⟨c1, c2, c3, c4, c5⟩ := C
  have key : s.walker = .fin (some .canceled) ∨
      (∃ p, s.walker = .sending p ∧ s.done = true) := by
    clear hsm him
    cases h <;> simp_all
  rcases key with hk | ⟨p, hp, hd⟩
  · exact (c2 hk).imp him hsm
  · rcases c1 hd with h1 | h1 | h1
    · exact (c3 h1).imp him hsm
    · exfalso
      rcases i3 with h3 | ⟨h3, _⟩
      · exact h1 h3
      · simp [State.allDone, hp, WalkerPc.isExited] at h3
    · exact Or.inr (hsm h1)

theorem cause_exit {k : Call} {s s' : State} (h : Tr k s s') (C : CauseInv k s) :
    (∀ e, s'.walker = .exited (some e) → s'.err ≠ none) ∧
      ∀ e, .exited (some e) ∈ s'.digs → s'.err ≠ none := by
  obtain ⟨c1, c2, c3, c4, c5⟩ := C
  constructor
  · cases h <;> simp_all
  · intro e he
    have key : .exited (some e) ∈ s.digs ∨ s'.err ≠ none := by
      cases h <;> simp only [record_digs] at he <;>
        first
        | exact Or.inl he
        | (rcases List.mem_or_eq_of_mem_set he with hm | hm
           · exact Or.inl hm
           · first
             | (cases hm; done)
             | (right; simp))
    rcases key with hm | hr
    · have := c5 e hm
      cases h <;> simp_all
    · exact hr

theorem cause_err {k : Call} {s s' : State} (h : Tr k s s') (I : Inv s)
    (M : StopInv k s) (C : CauseInv k s) (he : s'.err ≠ none) :
    s'.ioFailed = true ∨ stopped k s' = true := by
  have hsm := stopped_mono h M
  have him := ioFailed_mono h
  obtain ⟨i1, i2, i3, i4, i5, i6, i7, i8⟩ := I
  obtain ⟨c1, c2, c3, c4, c5⟩ := C
  by_cases he0 : s.err = none
  · cases h with
    | walkDone e hw =>
      cases e with
      | none => simp [State.record, he0] at he
      | some x =>
        cases x with
        | io c => left; simp [State.ioFailed, WalkerPc.ioErr]
        | canceled => exact (c2 hw).imp him hsm
    | readFail j p c hd hr =>
      left
      simp only [State.ioFailed, Bool.or_eq_true, record_digs]
      exact Or.inr (any_set_new hd rfl)
    | digCancel j r hd hc =>
      rcases c1 hc with h1 | h1 | h1
      · exact absurd he0 h1
      · exfalso
        rcases i3 with h3 | ⟨h3, _⟩
        · exact h1 h3
        · simp only [State.allDone, Bool.and_eq_true] at h3
          have := all_exited_get h3.2 hd
          simp [DigPc.isExited] at this
      · exact Or.inr (hsm h1)
    | _ => exact absurd he0 he
  · exact (c3 he0).imp him hsm

theorem causeInv_step {k : Call} {s s' : State} (h : Tr k s s') (I : Inv s)
    (M : StopInv k s) (C : CauseInv k s) : CauseInv k s' :=
  ⟨cause_done h I M C, cause_fin h I M C, cause_err h I M C,
    (cause_exit h C).1, (cause_exit h C).2⟩

theorem sum_set_nat (f : DigPc → Nat) {l : List DigPc} {j : Nat} {d : DigPc}
    (h : l[j]? = some d) :
    f d ≤ (l.map f).sum ∧ ∀ x, ((l.set j x).map f).sum = (l.map f).sum - f d + f x := by
  have hmem : f d ∈ l.map f := List.mem_map_of_mem _ (List.getElem?_mem h)
  have hle : f d ≤ (l.map f).sum := List.single_le_sum (fun _ _ => Nat.zero_le _) _ hmem
  refine ⟨hle, fun x => ?_⟩
  have := sum_map_set f l j d x h
  omega

theorem regularPaths_take_succ {evs : List WalkEvent} {n : Nat} {ev : WalkEvent}
    (h : evs[n]? = some ev) :
    regularPaths (evs.take (n + 1)) =
      regularPaths (evs.take n) ++ (if ev.entry = .regular then [ev.path] else []) := by
  rw [List.take_succ, h]
  simp only [regularPaths, List.filterMap_append, Option.toList]
  congr 1
  by_cases he : ev.entry = .regular <;> simp [he]

theorem acct_init (k : Call) : Acct k init := by
  refine ⟨?_, ?_, ?_⟩
  · intro p
    simp [State.held, MD5Pipeline.init, MainPc.holds, WalkerPc.holds, DigPc.holds]
  · intro _ p
    simp [State.held, MD5Pipeline.init, MainPc.holds, WalkerPc.holds, DigPc.holds,
      enumerated, regularPaths]
  · simp [MD5Pipeline.init]

theorem acct_le {k : Call} {s s' : State} (h : Tr k s s') (A : Acct k s) (p : Path) :
    s'.held p ≤ (enumerated k s').count p := by
  have a1 := A.le p
  cases h with
  | walkFail ev c hw hev he =>
    simp only [State.held, enumerated, regularPaths_take_succ hev, he, hw, WalkerPc.holds] at a1 ⊢
    simpa using a1
  | walkOther ev hw hev he =>
    simp only [State.held, enumerated, regularPaths_take_succ hev, he, hw, WalkerPc.holds] at a1 ⊢
    simpa using a1
  | walkRegular ev hw hev he =>
    simp only [State.held, enumerated, regularPaths_take_succ hev, he, hw, WalkerPc.holds] at a1 ⊢
    simp only [if_true, List.count_append, List.count_singleton'] at a1 ⊢
    omega
  | handoff j q hw hd =>
    obtain ⟨hle, hs⟩ := sum_set_nat (DigPc.holds p) hd
    simp only [State.held, enumerated, hw, hs, WalkerPc.holds, DigPc.holds] at a1 hle ⊢
    omega
  | walkCancel q hw hd =>
    simp only [State.held, enumerated, hw, WalkerPc.holds] at a1 ⊢
    omega
  | recvClosed j hd hp =>
    obtain ⟨hle, hs⟩ := sum_set_nat (DigPc.holds p) hd
    simp only [State.held, enumerated, hs, DigPc.holds] at a1 hle ⊢
    omega
  | readFail j q c hd hr =>
    obtain ⟨hle, hs⟩ := sum_set_nat (DigPc.holds p) hd
    simp only [State.held, enumerated, hs, DigPc.holds, record_yields, record_main,
      record_walker, record_digs, record_next] at a1 hle ⊢
    omega
  | readOk j q data hd hr =>
    obtain ⟨hle, hs⟩ := sum_set_nat (DigPc.holds p) hd
    simp only [State.held, enumerated, hs, DigPc.holds] at a1 hle ⊢
    omega
  | deliver j r hm hd =>
    obtain ⟨hle, hs⟩ := sum_set_nat (DigPc.holds p) hd
    simp only [State.held, enumerated, hs, hm, DigPc.holds, MainPc.holds] at a1 hle ⊢
    omega
  | digCancel j r hd hc =>
    obtain ⟨hle, hs⟩ := sum_set_nat (DigPc.holds p) hd
    simp only [State.held, enumerated, hs, DigPc.holds, record_yields, record_main,
      record_walker, record_digs, record_next] at a1 hle ⊢
    omega
  | yieldMore r hm hy =>
    simp only [State.held, enumerated, hm, MainPc.holds, List.map_append, List.map_cons,
      List.map_nil, List.count_append, List.count_singleton'] at a1 ⊢
    omega
  | yieldStop r hm hy =>
    simp only [State.held, enumerated, hm, MainPc.holds, List.map_append, List.map_cons,
      List.map_nil, List.count_append, List.count_singleton'] at a1 ⊢
    omega
  | walkDone e hw =>
    simp only [State.held, enumerated, hw, WalkerPc.holds, record_yields, record_main,
      record_walker, record_digs, record_next] at a1 ⊢
    omega
  | walkEnd hw hev =>
    simp only [State.held, enumerated, hw, WalkerPc.holds] at a1 ⊢
    omega
  | mainCancel hm =>
    simp only [State.held, enumerated, hm, MainPc.holds] at a1 ⊢
    omega
  | mainClosed hm hc =>
    simp only [State.held, enumerated, hm, MainPc.holds] at a1 ⊢
    omega
  | mainWait hm ha =>
    simp only [State.held, enumerated, hm, MainPc.holds] at a1 ⊢
    omega
  | callerCancel h0 => exact a1
  | closerWait hc ha => exact a1
  | closerClose hc => exact a1

theorem clean_back {k : Call} {s s' : State} (h : Tr k s s') (hc : clean s') : clean s := by
  obtain ⟨h1, h2⟩ := hc
  cases h with
  | walkDone e hw =>
    cases e with
    | none => exact ⟨by simpa using h1, fun e he => by rw [hw] at he; cases he⟩
    | some x => simp at h1
  | walkFail ev c hw hev he => exact absurd rfl (h2 _)
  | walkCancel q hw hd => exact absurd rfl (h2 _)
  | readFail j q c hd hr => simp at h1
  | digCancel j r hd hc' => simp at h1
  | _ => first | exact ⟨h1, h2⟩ | (refine ⟨h1, fun e he => ?_⟩; simp_all)

theorem acct_eq {k : Call} {s s' : State} (h : Tr k s s') (A : Acct k s) (hc : clean s')
    (p : Path) : s'.held p = (enumerated k s').count p := by
  have a1 := A.eq (clean_back h hc) p
  have a0 := A.le p
  cases h with
  | walkFail ev c hw hev he =>
    simp only [State.held, enumerated, regularPaths_take_succ hev, he, hw, WalkerPc.holds] at a1 ⊢
    simpa using a1
  | walkOther ev hw hev he =>
    simp only [State.held, enumerated, regularPaths_take_succ hev, he, hw, WalkerPc.holds] at a1 ⊢
    simpa using a1
  | walkRegular ev hw hev he =>
    simp only [State.held, enumerated, regularPaths_take_succ hev, he, hw, WalkerPc.holds] at a1 ⊢
    simp only [if_true, List.count_append, List.count_singleton'] at a1 ⊢
    omega
  | handoff j q hw hd =>
    obtain ⟨hle, hs⟩ := sum_set_nat (DigPc.holds p) hd
    simp only [State.held, enumerated, hw, hs, WalkerPc.holds, DigPc.holds] at a1 hle ⊢
    omega
  | walkCancel q hw hd => exact absurd rfl (hc.2 .canceled)
  | recvClosed j hd hp =>
    obtain ⟨hle, hs⟩ := sum_set_nat (DigPc.holds p) hd
    simp only [State.held, enumerated, hs, DigPc.holds] at a1 hle ⊢
    omega
  | readFail j q c hd hr => exact absurd hc.1 (by simp)
  | readOk j q data hd hr =>
    obtain ⟨hle, hs⟩ := sum_set_nat (DigPc.holds p) hd
    simp only [State.held, enumerated, hs, DigPc.holds] at a1 hle ⊢
    omega
  | deliver j r hm hd =>
    obtain ⟨hle, hs⟩ := sum_set_nat (DigPc.holds p) hd
    simp only [State.held, enumerated, hs, hm, DigPc.holds, MainPc.holds] at a1 hle ⊢
    omega
  | digCancel j r hd hc' => exact absurd hc.1 (by simp)
  | yieldMore r hm hy =>
    simp only [State.held, enumerated, hm, MainPc.holds, List.map_append, List.map_cons,
      List.map_nil, List.count_append, List.count_singleton'] at a1 ⊢
    omega
  | yieldStop r hm hy =>
    simp only [State.held, enumerated, hm, MainPc.holds, List.map_append, List.map_cons,
      List.map_nil, List.count_append, List.count_singleton'] at a1 ⊢
    omega
  | walkDone e hw =>
    simp only [State.held, enumerated, hw, WalkerPc.holds, record_yields, record_main,
      record_walker, record_digs, record_next] at a1 ⊢
    omega
  | walkEnd hw hev =>
    simp only [State.held, enumerated, hw, WalkerPc.holds] at a1 ⊢
    omega
  | mainCancel hm =>
    simp only [State.held, enumerated, hm, MainPc.holds] at a1 ⊢
    omega
  | mainClosed hm hc =>
    simp only [State.held, enumerated, hm, MainPc.holds] at a1 ⊢
    omega
  | mainWait hm ha =>
    simp only [State.held, enumerated, hm, MainPc.holds] at a1 ⊢
    omega
  | callerCancel h0 => exact a1
  | closerWait hc ha => exact a1
  | closerClose hc => exact a1


theorem acct_atEnd {k : Call} {s s' : State} (h : Tr k s s') (A : Acct k s)
    (hw : s'.walker = .fin none ∨ s'.walker = .exited none) :
    (k.world.walk k.root).length ≤ s'.next := by
  have a3 := A.atEnd
  cases h with
  | walkEnd hw' hev => exact List.getElem?_eq_none_iff.mp hev
  | walkDone e hw' =>
    cases e with
    | none => simpa using a3 (Or.inl hw')
    | some x => simp at hw
  | _ => simp_all

theorem acct_step {k : Call} {s s' : State} (h : Tr k s s') (A : Acct k s) : Acct k s' :=
  ⟨acct_le h A, acct_eq h A, acct_atEnd h A⟩

theorem digestInv_init (k : Call) : DigestInv k init := by
  refine ⟨?_, ?_, ?_⟩ <;> simp [MD5Pipeline.init]

theorem digestInv_step {k : Call} {s s' : State} (h : Tr k s s') (D : DigestInv k s) :
    DigestInv k s' := by
  obtain ⟨d1, d2, d3⟩ := D
  refine ⟨?_, ?_, ?_⟩
  · cases h with
    | yieldMore r hm hy =>
      intro x hx
      rcases List.mem_append.mp hx with hx | hx
      · exact d1 x hx
      · rw [List.mem_singleton.mp hx]; exact d2 r hm
    | yieldStop r hm hy =>
      intro x hx
      rcases List.mem_append.mp hx with hx | hx
      · exact d1 x hx
      · rw [List.mem_singleton.mp hx]; exact d2 r hm
    | _ => simpa using d1
  · cases h with
    | deliver j r hm hd =>
      intro x hx
      simp only [MainPc.yielding.injEq] at hx
      subst hx
      exact d3 r (List.getElem?_mem hd)
    | _ => simp_all
  · intro r hr
    have key : .sending r ∈ s.digs ∨ good k r := by
      cases h with
      | readOk j p data hd hrd =>
        rcases List.mem_or_eq_of_mem_set hr with hm | hm
        · exact Or.inl hm
        · right
          cases hm
          exact ⟨data, hrd, rfl⟩
      | _ =>
        simp only [record_digs] at hr
        first
        | exact Or.inl hr
        | (rcases List.mem_or_eq_of_mem_set hr with hm | hm
           · exact Or.inl hm
           · cases hm)
    exact key.elim (d3 r) id

theorem prefixInv_init (k : Call) : PrefixInv k init := by
  intro n _ h
  simp [MD5Pipeline.init] at h

theorem prefixInv_step {k : Call} {s s' : State} (h : Tr k s s') (M : StopInv k s)
    (P : PrefixInv k s) : PrefixInv k s' := by
  have key : ∀ r, s.main = .yielding r → PrefixInv k { s with yields := s.yields ++ [r] } := by
    intro r hm n h0 hn
    simp only [List.length_append, List.length_singleton] at hn
    rcases Nat.lt_or_eq_of_le (Nat.le_of_lt_succ hn) with h1 | h1
    · have := P n h0 h1
      rwa [List.take_append_of_le_length (Nat.le_of_lt h1)]
    · have hne : s.yields ≠ [] := by
        intro he; rw [he] at h1; simp at h1; omega
      simp only [StopInv, hm, stopped] at M
      have hy : k.yield s.yields = true := by
        cases hh : k.yield s.yields
        · simp [hh, hne] at M
        · rfl
      simp only [h1, List.take_left']
      exact hy
  cases h with
  | yieldMore r hm hy => exact key r hm
  | yieldStop r hm hy => exact key r hm
  | _ => simpa [PrefixInv] using P

theorem allInv_init (k : Call) : AllInv k init :=
  ⟨inv_init, stopInv_init k, causeInv_init k, acct_init k, digestInv_init k, prefixInv_init k⟩

theorem allInv_step {k : Call} {s s' : State} (h : Tr k s s') (A : AllInv k s) :
    AllInv k s' :=
  ⟨inv_step h A.basic, stopInv_step h A.basic A.stop, causeInv_step h A.basic A.stop A.cause,
    acct_step h A.acct, digestInv_step h A.digest, prefixInv_step h A.stop A.pre⟩

theorem runFrom_allInv {k : Call} {ls : List Label} {s s' : State} (A : AllInv k s)
    (h : runFrom k ls s = some s') : AllInv k s' :=
  runFrom_induct (AllInv k) (fun _ _ I t => allInv_step t I) ls _ _ A h

theorem run_allInv {k : Call} {ls : List Label} {s : State} (h : run k ls = some s) :
    AllInv k s :=
  runFrom_allInv (allInv_init k) h

/-- Every schedule is shorter than the fuel of the initial state. -/
theorem run_length_le {k : Call} {ls : List Label} {s : State} (h : run k ls = some s) :
    ls.length ≤ fuel k init := by
  have := runFrom_fuel ls _ _ h
  omega

theorem holds_sum_exited (p : Path) : ∀ {ds : List DigPc},
    ds.all DigPc.isExited = true → (ds.map (DigPc.holds p)).sum = 0 := by
  intro ds
  induction ds with
  | nil => intro _; rfl
  | cons d t ih =>
    intro h
    simp only [List.all_cons, Bool.and_eq_true] at h
    cases d <;> simp_all [DigPc.isExited, DigPc.holds]

/-- Once everything has returned, only the yielded pairs hold paths. -/
theorem held_final {s : State} (hm : s.main = .returned) (ha : s.allDone = true) (p : Path) :
    s.held p = (s.yields.map (·.path)).count p := by
  simp only [State.allDone, Bool.and_eq_true] at ha
  obtain ⟨hw, hd⟩ := ha
  have h1 : s.walker.holds p = 0 := by
    cases hx : s.walker <;> simp_all [WalkerPc.isExited, WalkerPc.holds]
  simp [State.held, hm, MainPc.holds, h1, holds_sum_exited p hd]

/-- A return without an early stop is a return after `g.Wait()`. -/
theorem drained {k : Call} {s : State} (A : AllInv k s) (hm : s.main = .returned)
    (hs : stopped k s = false) : s.allDone = true := by
  have M := A.stop
  simp only [StopInv, hm, hs] at M
  rcases M with M | M
  · cases M
  · rcases A.basic.closer with h3 | ⟨h3, _⟩
    · rw [M] at h3; cases h3
    · exact h3

theorem clean_of {k : Call} {s : State} (A : AllInv k s) (hio : s.ioFailed = false)
    (hs : stopped k s = false) : clean s := by
  constructor
  · by_contra he
    rcases A.cause.err he with h | h
    · rw [hio] at h; cases h
    · rw [hs] at h; cases h
  · intro e he
    cases e with
    | io c =>
      simp [State.ioFailed, he, WalkerPc.ioErr] at hio
    | canceled =>
      rcases A.cause.fin he with h | h
      · rw [hio] at h; cases h
      · rw [hs] at h; cases h

theorem yields_count_le {k : Call} {s : State} (A : AllInv k s) (p : Path) :
    (s.yields.map (·.path)).count p ≤ (enumerated k s).count p := by
  have := A.acct.le p
  simp only [State.held] at this
  omega

/-- The yielded paths are, up to order, among the enumerated ones. -/
theorem yields_subperm {k : Call} {s : State} (A : AllInv k s) :
    (s.yields.map (·.path)).Subperm (enumerated k s) :=
  List.subperm_ext_iff.mpr fun p _ => yields_count_le A p

theorem enumerated_sublist (k : Call) (s : State) :
    (enumerated k s).Sublist (regularPaths (k.world.walk k.root)) :=
  (List.take_sublist _ _).filterMap _

/-- After a full drain without error, the yielded paths are exactly the
enumerated ones. -/
theorem yields_perm_enumerated {k : Call} {s : State} (A : AllInv k s)
    (hm : s.main = .returned) (hio : s.ioFailed = false) (hs : stopped k s = false) :
    (s.yields.map (·.path)).Perm (enumerated k s) := by
  rw [List.perm_iff_count]
  intro p
  rw [← held_final hm (drained A hm hs) p]
  exact A.acct.eq (clean_of A hio hs) p

theorem any_set_back {f : DigPc → Bool} {ds : List DigPc} {j : Nat} {x : DigPc}
    (h : (ds.set j x).any f = true) : f x = true ∨ ds.any f = true := by
  rw [List.any_eq_true] at h
  obtain ⟨d, hd, hf⟩ := h
  rcases List.mem_or_eq_of_mem_set hd with hm | hm
  · exact Or.inr (List.any_eq_true.mpr ⟨d, hm, hf⟩)
  · exact Or.inl (hm ▸ hf)

theorem walkSucceeds_false {k : Call} {ev : WalkEvent} {c : Errno}
    (hev : ev ∈ k.world.walk k.root) (he : ev.entry = .failed c) :
    walkSucceeds k = false := by
  rw [walkSucceeds, List.all_eq_false]
  exact ⟨ev, hev, by simp [he]⟩

theorem readsSucceed_false {k : Call} {p : Path} {c : Errno}
    (hp : p ∈ regularPaths (k.world.walk k.root)) (hr : k.world.readFile p = .error c) :
    readsSucceed k = false := by
  rw [readsSucceed, List.all_eq_false]
  exact ⟨p, hp, by simp [hr]⟩

/-- A path a digester is reading has been enumerated by the walker. -/
theorem reading_enumerated {k : Call} {s : State} (A : Acct k s) {j : Nat} {p : Path}
    (hd : s.digs[j]? = some (.reading p)) : p ∈ regularPaths (k.world.walk k.root) := by
  have h1 := (sum_set_nat (DigPc.holds p) hd).1
  have h2 := A.le p
  simp only [State.held, DigPc.holds, if_true] at h1 h2
  have h3 : 0 < (enumerated k s).count p := by omega
  exact (enumerated_sublist k s).subset (List.count_pos_iff.mp h3)

theorem ioInv_step {k : Call} {s s' : State} (h : Tr k s s') (A : Acct k s)
    (J : IoInv k s) : IoInv k s' := by
  intro hio
  by_cases h0 : s.ioFailed = true
  · exact J h0
  · simp only [State.ioFailed, Bool.or_eq_true, not_or] at h0 hio
    obtain ⟨hw0, hd0⟩ := h0
    cases h with
    | walkFail ev c hw hev he => exact Or.inl (walkSucceeds_false (List.getElem?_mem hev) he)
    | readFail j p c hd hr => exact Or.inr (readsSucceed_false (reading_enumerated A hd) hr)
    | walkDone e hw =>
      exfalso
      simp only [record_digs] at hio
      rcases hio with hio | hio
      · rw [hw] at hw0
        cases e with
        | none => simp [WalkerPc.ioErr] at hio
        | some x => cases x <;> simp_all [WalkerPc.ioErr]
      · exact hd0 hio
    | _ =>
      exfalso
      simp only [record_digs, record_walker] at hio
      rcases hio with hio | hio
      · first
        | exact hw0 hio
        | simp [WalkerPc.ioErr] at hio
      · first
        | exact hd0 hio
        | (rcases any_set_back hio with hx | hx
           · simp [DigPc.ioErr] at hx
           · exact hd0 hx)

theorem ioInv_init (k : Call) : IoInv k init := by
  intro h
  simp [State.ioFailed, MD5Pipeline.init, WalkerPc.ioErr, DigPc.ioErr] at h

theorem run_ioInv {k : Call} {ls : List Label} {s : State} (h : run k ls = some s) :
    IoInv k s := by
  have := runFrom_induct (fun s => AllInv k s ∧ IoInv k s)
    (fun _ _ I t => ⟨allInv_step t I.1, ioInv_step t I.1.acct I.2⟩) ls _ _
    ⟨allInv_init k, ioInv_init k⟩ h
  exact this.2

theorem not_stopped_of_drain {k : Call} (hy : ∀ h, k.yield h = true) (s : State) :
    stopped k s = false := by
  simp [stopped, hy]

theorem not_ioFailed {k : Call} {ls : List Label} {s : State} (hw : walkSucceeds k = true)
    (hr : readsSucceed k = true) (h : run k ls = some s) : s.ioFailed = false := by
  cases hio : s.ioFailed with
  | false => rfl
  | true =>
    rcases run_ioInv h hio with h1 | h1
    · rw [hw] at h1; cases h1
    · rw [hr] at h1; cases h1

/-- After a full drain without error the walk has been completed. -/
theorem enumerated_all {k : Call} {s : State} (A : AllInv k s) (hm : s.main = .returned)
    (hio : s.ioFailed = false) (hs : stopped k s = false) :
    enumerated k s = regularPaths (k.world.walk k.root) := by
  have ha := drained A hm hs
  have hc := clean_of A hio hs
  simp only [State.allDone, Bool.and_eq_true] at ha
  cases hx : s.walker with
  | exited e =>
    cases e with
    | none =>
      have := A.acct.atEnd (Or.inr hx)
      simp only [enumerated, List.take_of_length_le this]
    | some x => exact absurd hc.1 (A.cause.wexit x hx)
  | _ => simp [hx, WalkerPc.isExited] at ha

theorem good_eq {k : Call} {r : result} (h : good k r) : r = ⟨r.path, digestOf k r.path⟩ := by
  obtain ⟨data, h1, h2⟩ := h
  cases r with
  | mk p d =>
    simp only [digestOf] at *
    simp only [h1, result.mk.injEq, true_and]
    exact h2

theorem yields_eq_map {k : Call} : ∀ (ys : List result), (∀ r ∈ ys, good k r) →
    ys = (ys.map (·.path)).map fun p => ⟨p, digestOf k p⟩ := by
  intro ys
  induction ys with
  | nil => intro _; rfl
  | cons r t ih =>
    intro h
    simp only [List.map_cons]
    rw [← ih (fun x hx => h x (List.mem_cons_of_mem _ hx)), ← good_eq (h r (List.mem_cons_self _ _))]

/-- Full drain: when the walk and all reads succeed and the consumer never
stops, a finished run has yielded exactly the expected pairs. -/
theorem full_drain {k : Call} {ls : List Label} {s : State} (hw : walkSucceeds k = true)
    (hr : readsSucceed k = true) (hy : ∀ h, k.yield h = true) (h : run k ls = some s)
    (hm : s.main = .returned) :
    (s.yields.map (·.path)).Perm (regularPaths (k.world.walk k.root)) ∧
      s.yields.Perm (expected k) := by
  have A := run_allInv h
  have hio := not_ioFailed hw hr h
  have hs := not_stopped_of_drain hy s
  have hp := yields_perm_enumerated A hm hio hs
  rw [enumerated_all A hm hio hs] at hp
  refine ⟨hp, ?_⟩
  rw [yields_eq_map s.yields A.digest.yields]
  exact hp.map _

/-- Progress for every state a schedule leads to. -/
theorem run_progress {k : Call} {ls : List Label} {s : State} (h : run k ls = some s)
    (hm : s.main ≠ .returned) : ∃ l, l.internal = true ∧ (step k l s).isSome = true :=
  progress (run_allInv h).basic (Or.inl hm)

/-- C1. When the walk and every read succeed and `yield` always returns
true, every run of the iterator is finite, can always continue until the
iterator has returned, and on return `yield` has been called exactly once per
regular file of the tree, with the MD5 sum of that file, and for nothing else. -/
theorem C1_full_drain_yields_every_regular_file (k : Call)
    (hw : walkSucceeds k = true) (hr : readsSucceed k = true)
    (hy : ∀ h, k.yield h = true) (ls : List Label) (s : State) (h : run k ls = some s) :
    ls.length ≤ fuel k init ∧
    (s.main ≠ .returned → ∃ l, l.internal = true ∧ (step k l s).isSome = true) ∧
    (s.main = .returned →
      s.yields.length = (regularPaths (k.world.walk k.root)).length ∧
      (s.yields.map (·.path)).Perm (regularPaths (k.world.walk k.root)) ∧
      s.yields.Perm (expected k) ∧
      ∀ r ∈ s.yields, ∃ data, k.world.readFile r.path = .ok data ∧
        r.sum = k.world.md5Sum data) := by
  refine ⟨run_length_le h, run_progress h, fun hm => ?_⟩
  obtain ⟨h1, h2⟩ := full_drain hw hr hy h hm
  refine ⟨?_, h1, h2, (run_allInv h).digest.yields⟩
  have := h1.length_eq
  simpa using this

theorem C1_witness :
    (finalOf ⟨twoFiles, "r", drainAll⟩ drainTwo).main = .returned ∧
    (finalOf ⟨twoFiles, "r", drainAll⟩ drainTwo).yields.length = 2 ∧
    (finalOf ⟨twoFiles, "r", drainAll⟩ drainTwo).yields.Perm
      (expected ⟨twoFiles, "r", drainAll⟩) :=
  have h := (C1_full_drain_yields_every_regular_file ⟨twoFiles, "r", drainAll⟩
    (by decide) (by decide) (fun _ => rfl) drainTwo
    (finalOf ⟨twoFiles, "r", drainAll⟩ drainTwo) (by rfl)).2.2 (by decide)
  ⟨by decide, h.1, h.2.2.1⟩

/-- After an early stop no transition calls `yield` again. -/
theorem stopped_yields {k : Call} {s s' : State} (h : Tr k s s') (M : StopInv k s)
    (hs : stopped k s = true) : s'.yields = s.yields := by
  cases h with
  | yieldMore r hm hy => simp [StopInv, hm, hs] at M
  | yieldStop r hm hy => simp [StopInv, hm, hs] at M
  | _ => simp

theorem stopped_forever {k : Call} {ls : List Label} {s s' : State} (A : AllInv k s)
    (hs : stopped k s = true) (h : runFrom k ls s = some s') :
    AllInv k s' ∧ stopped k s' = true ∧ s'.yields = s.yields :=
  runFrom_induct (fun t => AllInv k t ∧ stopped k t = true ∧ t.yields = s.yields)
    (fun _ _ I tr => ⟨allInv_step tr I.1, stopped_mono tr I.1.stop I.2.1,
      (stopped_yields tr I.1.stop I.2.1).trans I.2.2⟩) ls s s' ⟨A, hs, rfl⟩ h

/-- Where the iterator body is after an early stop. -/
theorem stopped_main {k : Call} {s : State} (A : AllInv k s) (hs : stopped k s = true) :
    s.main = .cancelling ∨ (s.main = .returned ∧ s.done = true) := by
  have M := A.stop
  cases hm : s.main with
  | cancelling => exact Or.inl rfl
  | returned => exact Or.inr ⟨rfl, A.basic.mainRet hm⟩
  | _ => simp [StopInv, hm, hs] at M

/-- C5. If `yield` returns false on its `n`-th call, that call is the last
one: exactly `n` calls have been made, the iterator body is about to cancel
the pipeline context (a step that is enabled and leads to the return) or has
cancelled it and returned, and whatever happens afterwards, walk and read
failures included, changes nothing of what the caller has been handed. -/
theorem C5_early_stop_is_final (k : Call) (ls : List Label) (s : State)
    (h : run k ls = some s) (n : Nat) (hn0 : 0 < n) (hn : n ≤ s.yields.length)
    (hf : k.yield (s.yields.take n) = false) :
    s.yields.length = n ∧
    (s.main = .cancelling ∨ (s.main = .returned ∧ s.done = true)) ∧
    (s.main = .cancelling →
      step k .mainCancel s = some { s with main := .returned, done := true }) ∧
    ∀ ls' s', runFrom k ls' s = some s' →
      s'.yields = s.yields ∧
      (s'.main = .cancelling ∨ (s'.main = .returned ∧ s'.done = true)) ∧
      (s.main = .returned → observe s' = observe s) := by
  have A := run_allInv h
  have hlen : s.yields.length = n := by
    rcases Nat.lt_or_eq_of_le hn with h1 | h1
    · have := A.pre n hn0 h1
      rw [hf] at this; cases this
    · exact h1.symm
  have hs : stopped k s = true := by
    have hne : s.yields ≠ [] := by
      intro he; rw [he] at hlen; simp at hlen; omega
    rw [← hlen, List.take_length] at hf
    simp [stopped, hne, hf]
  refine ⟨hlen, stopped_main A hs, ?_, ?_⟩
  · intro hm
    simp [step, hm]
  · intro ls' s' h'
    obtain ⟨A', hs', hy'⟩ := stopped_forever A hs h'
    refine ⟨hy', stopped_main A' hs', ?_⟩
    intro hm
    have hret : s'.main = .returned := by
      have := runFrom_induct (fun t => t.main = .returned)
        (fun _ _ I tr => by cases tr <;> simp_all) ls' s s' hm h'
      exact this
    simp [observe, hy', hm, hret]

theorem C5_witness :
    (finalOf ⟨oneFile, "r", stopAtFirst⟩ stopEarly).yields.length = 1 ∧
    (finalOf ⟨oneFile, "r", stopAtFirst⟩ stopEarly).main = .returned ∧
    (finalOf ⟨oneFile, "r", stopAtFirst⟩ stopEarly).done = true :=
  have h := C5_early_stop_is_final ⟨oneFile, "r", stopAtFirst⟩ stopEarly
    (finalOf ⟨oneFile, "r", stopAtFirst⟩ stopEarly) (by rfl) 1 (by decide) (by decide)
    (by rfl)
  ⟨h.1, by decide, by decide⟩

theorem chargeInv_init (k : Call) : ChargeInv k init := by
  simp [ChargeInv, State.charged, MD5Pipeline.init, MainPc.charge, WalkerPc.charge,
    DigPc.charge]

theorem chargeInv_step {k : Call} {s s' : State} (h : Tr k s s') (C : ChargeInv k s) :
    ChargeInv k s' := by
  unfold ChargeInv at C ⊢
  cases h with
  | walkFail ev c hw hev he =>
    simp only [State.charged, enumerated, regularPaths_take_succ hev, he, hw,
      WalkerPc.charge] at C ⊢
    simpa using C
  | walkOther ev hw hev he =>
    simp only [State.charged, enumerated, regularPaths_take_succ hev, he, hw,
      WalkerPc.charge] at C ⊢
    simpa using C
  | walkRegular ev hw hev he =>
    simp only [State.charged, enumerated, regularPaths_take_succ hev, he, hw,
      WalkerPc.charge, if_true, List.length_append, List.length_singleton] at C ⊢
    omega
  | handoff j q hw hd =>
    obtain ⟨hle, hs⟩ := sum_set_nat DigPc.charge hd
    simp only [State.charged, enumerated, hw, hs, WalkerPc.charge, DigPc.charge] at C hle ⊢
    omega
  | walkCancel q hw hd =>
    simp only [State.charged, enumerated, hw, WalkerPc.charge] at C ⊢
    omega
  | recvClosed j hd hp =>
    obtain ⟨hle, hs⟩ := sum_set_nat DigPc.charge hd
    simp only [State.charged, enumerated, hs, DigPc.charge] at C hle ⊢
    omega
  | readFail j q c hd hr =>
    obtain ⟨hle, hs⟩ := sum_set_nat DigPc.charge hd
    simp only [State.charged, enumerated, hs, DigPc.charge, record_yields, record_main,
      record_walker, record_digs, record_next] at C hle ⊢
    omega
  | readOk j q data hd hr =>
    obtain ⟨hle, hs⟩ := sum_set_nat DigPc.charge hd
    simp only [State.charged, enumerated, hs, DigPc.charge] at C hle ⊢
    omega
  | deliver j r hm hd =>
    obtain ⟨hle, hs⟩ := sum_set_nat DigPc.charge hd
    simp only [State.charged, enumerated, hs, hm, DigPc.charge, MainPc.charge] at C hle ⊢
    omega
  | digCancel j r hd hc =>
    obtain ⟨hle, hs⟩ := sum_set_nat DigPc.charge hd
    simp only [State.charged, enumerated, hs, DigPc.charge, record_yields, record_main,
      record_walker, record_digs, record_next] at C hle ⊢
    omega
  | yieldMore r hm hy =>
    simp only [State.charged, enumerated, hm, MainPc.charge, List.length_append,
      List.length_singleton] at C ⊢
    omega
  | yieldStop r hm hy =>
    simp only [State.charged, enumerated, hm, MainPc.charge, List.length_append,
      List.length_singleton] at C ⊢
    omega
  | walkDone e hw =>
    simp only [State.charged, enumerated, hw, WalkerPc.charge, record_yields, record_main,
      record_walker, record_digs, record_next] at C ⊢
    omega
  | walkEnd hw hev =>
    simp only [State.charged, enumerated, hw, WalkerPc.charge] at C ⊢
    omega
  | mainCancel hm =>
    simp only [State.charged, enumerated, hm, MainPc.charge] at C ⊢
    omega
  | mainClosed hm hc =>
    simp only [State.charged, enumerated, hm, MainPc.charge] at C ⊢
    omega
  | mainWait hm ha =>
    simp only [State.charged, enumerated, hm, MainPc.charge] at C ⊢
    omega
  | callerCancel h0 => exact C
  | closerWait hc ha => exact C
  | closerClose hc => exact C

theorem run_chargeInv {k : Call} {ls : List Label} {s : State} (h : run k ls = some s) :
    ChargeInv k s :=
  runFrom_induct (ChargeInv k) (fun _ _ C t => chargeInv_step t C) ls _ _
    (chargeInv_init k) h

theorem charge_pos_of_readFailed : ∀ {ds : List DigPc},
    ds.any DigPc.ioErr = true → 0 < (ds.map DigPc.charge).sum := by
  intro ds
  induction ds with
  | nil => intro h; simp at h
  | cons d t ih =>
    intro h
    simp only [List.any_cons, Bool.or_eq_true] at h
    simp only [List.map_cons, List.sum_cons]
    rcases h with h | h
    · have : d.charge = 1 := by
        cases d with
        | exited e =>
          cases e with
          | none => simp [DigPc.ioErr] at h
          | some x => cases x <;> simp_all [DigPc.ioErr, DigPc.charge]
        | _ => simp [DigPc.ioErr] at h
      omega
    · have := ih h
      omega

/-- A failed read always leaves fewer pairs yielded than paths enumerated. -/
theorem readFailed_lt {k : Call} {ls : List Label} {s : State} (h : run k ls = some s)
    (hf : s.readFailed = true) : s.yields.length < (enumerated k s).length := by
  have C := run_chargeInv h
  have hp := charge_pos_of_readFailed hf
  simp only [ChargeInv, State.charged] at C
  omega

/-- C6 (amended). In every state of every run the number of pairs yielded is
at most the number of paths the walker has enumerated; the two numbers are
equal once the iterator has returned if no goroutine has returned a
file-system error and the consumer has not stopped early; and they are equal
only if no read has failed. -/
theorem C6_yielded_le_enumerated (k : Call) (ls : List Label) (s : State)
    (h : run k ls = some s) :
    s.yields.length ≤ (enumerated k s).length ∧
    (s.main = .returned → s.ioFailed = false → stopped k s = false →
      s.yields.length = (enumerated k s).length) ∧
    (s.yields.length = (enumerated k s).length → s.readFailed = false) := by
  have A := run_allInv h
  refine ⟨?_, ?_, ?_⟩
  · have := (yields_subperm A).length_le
    simpa using this
  · intro hm hio hs
    have := (yields_perm_enumerated A hm hio hs).length_eq
    simpa using this
  · intro heq
    cases hf : s.readFailed with
    | false => rfl
    | true =>
      have := readFailed_lt h hf
      omega

theorem C6_witness :
    (finalOf ⟨twoFiles, "r", drainAll⟩ drainTwo).yields.length = 2 ∧
    (enumerated ⟨twoFiles, "r", drainAll⟩
      (finalOf ⟨twoFiles, "r", drainAll⟩ drainTwo)).length = 2 ∧
    (finalOf ⟨twoFiles, "r", drainAll⟩ drainTwo).readFailed = false :=
  have h := C6_yielded_le_enumerated ⟨twoFiles, "r", drainAll⟩ drainTwo
    (finalOf ⟨twoFiles, "r", drainAll⟩ drainTwo) (by rfl)
  have heq := h.2.1 (by decide) (by decide) (by decide)
  ⟨by decide, heq.symm.trans (by decide), h.2.2 heq⟩

/-- C6 as stated fails in two ways.  After an early stop at the only file, as
many pairs have been yielded as paths were enumerated, with no file-system
error; and when the walk fails after the only file has been yielded, the two
numbers are equal too, with no early stop and no failed read.  So equality
implies neither the absence of an early stop nor the absence of a walk
failure. -/
theorem C6_counterexample :
    (¬ (∀ (ls : List Label) (s : State), run ⟨oneFile, "r", stopAtFirst⟩ ls = some s →
        s.main = .returned →
        (s.yields.length = (enumerated ⟨oneFile, "r", stopAtFirst⟩ s).length ↔
          (s.ioFailed = false ∧ stopped ⟨oneFile, "r", stopAtFirst⟩ s = false)))) ∧
    (¬ (∀ (ls : List Label) (s : State), run ⟨walkBreaks, "r", drainAll⟩ ls = some s →
        s.main = .returned →
        (s.yields.length = (enumerated ⟨walkBreaks, "r", drainAll⟩ s).length ↔
          (s.ioFailed = false ∧ stopped ⟨walkBreaks, "r", drainAll⟩ s = false)))) ∧
    (∃ s : State, run ⟨oneFile, "r", stopAtFirst⟩ stopEarly = some s ∧
      s.main = .returned ∧
      s.yields.length = (enumerated ⟨oneFile, "r", stopAtFirst⟩ s).length ∧
      s.ioFailed = false ∧ stopped ⟨oneFile, "r", stopAtFirst⟩ s = true) ∧
    (∃ s : State, run ⟨walkBreaks, "r", drainAll⟩ walkFailsLate = some s ∧
      s.main = .returned ∧
      s.yields.length = (enumerated ⟨walkBreaks, "r", drainAll⟩ s).length ∧
      s.walkFailed = true ∧ s.readFailed = false ∧
      stopped ⟨walkBreaks, "r", drainAll⟩ s = false) := by
  refine ⟨?_, ?_, ?_, ?_⟩
  · intro H
    have h := H stopEarly (finalOf ⟨oneFile, "r", stopAtFirst⟩ stopEarly) (by rfl)
      (by decide)
    have h1 := (h.mp (by decide)).2
    revert h1
    decide
  · intro H
    have h := H walkFailsLate (finalOf ⟨walkBreaks, "r", drainAll⟩ walkFailsLate) (by rfl)
      (by decide)
    have h1 := (h.mp (by decide)).1
    revert h1
    decide
  · exact ⟨finalOf ⟨oneFile, "r", stopAtFirst⟩ stopEarly, by rfl, by decide, by decide,
      by decide, by decide⟩
  · exact ⟨finalOf ⟨walkBreaks, "r", drainAll⟩ walkFailsLate, by rfl, by decide, by decide,
      by decide, by decide, by decide⟩

theorem missingInv_init (c : Errno) : MissingInv c init := by
  refine ⟨rfl, ?_, Or.inl rfl, Or.inl ⟨rfl, rfl⟩, ?_, ?_⟩
  · intro d hd
    exact Or.inl (List.mem_replicate.mp hd).2
  · intro h; cases h
  · intro _; rfl

theorem missingInv_step {k : Call} {c : Errno}
    (hroot : k.world.walk k.root = [⟨k.root, .failed c⟩]) {s s' : State}
    (h : Tr k s s') (I : MissingInv c s) : MissingInv c s' := by
  obtain ⟨m1, m2, m3, m4, m5, m6⟩ := I
  have hev : ∀ ev, (k.world.walk k.root)[s.next]? = some ev → s.walker = .walking →
      ev.entry = .failed c := by
    intro ev he hw
    rcases m4 with ⟨_, h0⟩ | h0 | h0
    · rw [hroot, h0] at he
      simp at he
      rw [← he]
    · rw [hw] at h0; cases h0
    · rw [hw] at h0; cases h0
  have hdig : ∀ (j : Nat) (d : DigPc), s.digs[j]? = some d → d = .recv ∨ d = .exited none :=
    fun j d hj => m2 d (List.getElem?_mem hj)
  cases h with
  | walkEnd hw he =>
    exfalso
    rcases m4 with ⟨_, h0⟩ | h0 | h0
    · rw [hroot, h0] at he; simp at he
    · rw [hw] at h0; cases h0
    · rw [hw] at h0; cases h0
  | walkFail ev c' hw he hent =>
    have := hev ev he hw
    rw [hent] at this
    cases this
    exact ⟨m1, m2, m3, Or.inr (Or.inl rfl), by simp [WalkerPc.isExited],
      fun _ => m6 (by simp [hw, WalkerPc.isExited])⟩
  | walkOther ev hw he hent => have := hev ev he hw; rw [hent] at this; cases this
  | walkRegular ev hw he hent => have := hev ev he hw; rw [hent] at this; cases this
  | handoff j p hw hd => rcases m4 with ⟨h0, _⟩ | h0 | h0 <;> rw [hw] at h0 <;> cases h0
  | walkCancel p hw hd => rcases m4 with ⟨h0, _⟩ | h0 | h0 <;> rw [hw] at h0 <;> cases h0
  | walkDone e hw =>
    rcases m4 with ⟨h0, _⟩ | h0 | h0
    · rw [hw] at h0; cases h0
    · rw [hw] at h0
      cases h0
      have he0 := m6 (by simp [hw, WalkerPc.isExited])
      exact ⟨by simpa using m1, by simpa using m2, by simpa using m3, Or.inr (Or.inr rfl),
        fun _ => by simp [State.record, he0], fun hx => by simp [WalkerPc.isExited] at hx⟩
    · rw [hw] at h0; cases h0
  | recvClosed j hd hp =>
    refine ⟨m1, ?_, m3, m4, m5, m6⟩
    intro d hd'
    rcases List.mem_or_eq_of_mem_set hd' with hm | hm
    · exact m2 d hm
    · exact Or.inr hm
  | readFail j p c' hd hr => rcases hdig j _ hd with h0 | h0 <;> cases h0
  | readOk j p data hd hr => rcases hdig j _ hd with h0 | h0 <;> cases h0
  | deliver j r hm hd => rcases hdig j _ hd with h0 | h0 <;> cases h0
  | digCancel j r hd hc => rcases hdig j _ hd with h0 | h0 <;> cases h0
  | yieldMore r hm hy => rcases m3 with h0 | h0 | h0 <;> rw [hm] at h0 <;> cases h0
  | yieldStop r hm hy => rcases m3 with h0 | h0 | h0 <;> rw [hm] at h0 <;> cases h0
  | mainCancel hm => rcases m3 with h0 | h0 | h0 <;> rw [hm] at h0 <;> cases h0
  | mainClosed hm hc => exact ⟨m1, m2, Or.inr (Or.inl rfl), m4, m5, m6⟩
  | mainWait hm ha => exact ⟨m1, m2, Or.inr (Or.inr rfl), m4, m5, m6⟩
  | callerCancel h0 => exact ⟨m1, m2, m3, m4, m5, m6⟩
  | closerWait hc ha => exact ⟨m1, m2, m3, m4, m5, m6⟩
  | closerClose hc => exact ⟨m1, m2, m3, m4, m5, m6⟩

/-- C7. For a root that does not exist (the walk consists of the one
callback invocation that reports the error for the root), no run ever calls
`yield`: no path is enumerated, every digester is waiting on `paths` or has
left its loop with nil, nothing is received from `c`; every run is finite,
does not get stuck before the iterator has returned, and at the return `c` is
closed, every digester has left its loop on the closed `paths`, and the
errgroup holds the walk error. -/
theorem C7_missing_root_yields_nothing (k : Call) (c : Errno)
    (hroot : k.world.walk k.root = [⟨k.root, .failed c⟩])
    (ls : List Label) (s : State) (h : run k ls = some s) :
    s.yields = [] ∧ enumerated k s = [] ∧
    (∀ d ∈ s.digs, d = .recv ∨ d = .exited none) ∧
    (∀ r, s.main ≠ .yielding r) ∧
    ls.length ≤ fuel k init ∧
    (s.main ≠ .returned → ∃ l, l.internal = true ∧ (step k l s).isSome = true) ∧
    (s.main = .returned → s.cClosed = true ∧ s.pathsClosed = true ∧
      (∀ d ∈ s.digs, d = .exited none) ∧ s.err = some (.io c)) := by
  have M : MissingInv c s :=
    runFrom_induct (MissingInv c) (fun _ _ I t => missingInv_step hroot t I) ls _ _
      (missingInv_init c) h
  have A := run_allInv h
  refine ⟨M.yields, ?_, M.digs, ?_, run_length_le h, run_progress h, ?_⟩
  · have hsub := enumerated_sublist k s
    rw [hroot] at hsub
    simpa [regularPaths] using hsub
  · intro r hr
    rcases M.main with h0 | h0 | h0 <;> rw [hr] at h0 <;> cases h0
  · intro hm
    have hs : stopped k s = false := by simp [stopped, M.yields]
    have ha := drained A hm hs
    have hst := A.stop
    simp only [StopInv, hm, hs] at hst
    rcases hst with hst | hst
    · cases hst
    · simp only [State.allDone, Bool.and_eq_true] at ha
      refine ⟨A.basic.cClosed.mpr hst, ?_, ?_, M.err ha.1⟩
      · rw [A.basic.paths]
        cases hx : s.walker <;> simp_all [WalkerPc.isExited, WalkerPc.returned]
      · intro d hd
        rcases M.digs d hd with h0 | h0
        · have := List.all_eq_true.mp ha.2 d hd
          rw [h0] at this
          cases this
        · exact h0

theorem C7_witness :
    (finalOf ⟨missingRoot, "nowhere", drainAll⟩ drainMissing).main = .returned ∧
    (finalOf ⟨missingRoot, "nowhere", drainAll⟩ drainMissing).yields = [] ∧
    (finalOf ⟨missingRoot, "nowhere", drainAll⟩ drainMissing).err = some (.io 2) :=
  have h := C7_missing_root_yields_nothing ⟨missingRoot, "nowhere", drainAll⟩ 2 (by rfl)
    drainMissing (finalOf ⟨missingRoot, "nowhere", drainAll⟩ drainMissing) (by rfl)
  ⟨by decide, h.1, (h.2.2.2.2.2.2 (by decide)).2.2.2⟩

theorem subperm_erase_of_not_mem {l₁ l₂ : List Path} {u : Path} (h : l₁.Subperm l₂)
    (hu : u ∉ l₁) : l₁.Subperm (l₂.erase u) := by
  rw [List.subperm_ext_iff] at h ⊢
  intro x hx
  have hne : x ≠ u := fun he => hu (he ▸ hx)
  have := h x hx
  rw [List.count_erase_of_ne hne]
  exact this

/-- C8. If a regular file of the tree cannot be read (and the paths of the
tree are distinct), then in every run the path of that file is never yielded,
no path is yielded twice, and fewer pairs are yielded than the tree has
regular files. -/
theorem C8_unreadable_file_never_yielded (k : Call) (u : Path) (c : Errno)
    (hnd : (regularPaths (k.world.walk k.root)).Nodup)
    (hu : u ∈ regularPaths (k.world.walk k.root))
    (hr : k.world.readFile u = .error c)
    (ls : List Label) (s : State) (h : run k ls = some s) :
    s.yields.length ≤ (regularPaths (k.world.walk k.root)).length - 1 ∧
    u ∉ s.yields.map (·.path) ∧
    (∀ p, (s.yields.map (·.path)).count p ≤ 1) ∧
    ∀ r ∈ s.yields, r.path ∈ regularPaths (k.world.walk k.root) ∧
      ∃ data, k.world.readFile r.path = .ok data ∧ r.sum = k.world.md5Sum data := by
  have A := run_allInv h
  have hsub : (s.yields.map (·.path)).Subperm (regularPaths (k.world.walk k.root)) :=
    (yields_subperm A).trans (enumerated_sublist k s).subperm
  have hnot : u ∉ s.yields.map (·.path) := by
    intro hm
    obtain ⟨r, hr1, hr2⟩ := List.mem_map.mp hm
    obtain ⟨data, hd, _⟩ := A.digest.yields r hr1
    have hr3 : r.path = u := hr2
    rw [hr3, hr] at hd
    cases hd
  refine ⟨?_, hnot, ?_, ?_⟩
  · have := (subperm_erase_of_not_mem hsub hnot).length_le
    rw [List.length_erase_of_mem hu] at this
    simpa using this
  · intro p
    exact (hsub.count_le p).trans (List.nodup_iff_count_le_one.mp hnd p)
  · intro r hr1
    exact ⟨hsub.subset (List.mem_map_of_mem _ hr1), A.digest.yields r hr1⟩

theorem C8_witness :
    (finalOf ⟨oneUnreadable, "r", drainAll⟩ failLate).yields.length ≤ 1 ∧
    "r/b" ∉ (finalOf ⟨oneUnreadable, "r", drainAll⟩ failLate).yields.map (·.path) :=
  have h := C8_unreadable_file_never_yielded ⟨oneUnreadable, "r", drainAll⟩ "r/b" 13
    (by decide) (by decide) (by rfl) failLate
    (finalOf ⟨oneUnreadable, "r", drainAll⟩ failLate) (by rfl)
  ⟨h.1, h.2.1⟩

/-- C9. In every state of every run at most `numDigesters` = 20 files are
being read: a file is being read exactly while one of the 20 digesters is
inside `os.ReadFile`. -/
theorem C9_at_most_numDigesters_reads (k : Call) (ls : List Label) (s : State)
    (h : run k ls = some s) :
    (s.digs.filter DigPc.isReading).length ≤ numDigesters ∧ numDigesters = 20 := by
  have A := run_allInv h
  refine ⟨?_, rfl⟩
  rw [← A.basic.len]
  exact List.length_filter_le _ _

theorem C9_witness :
    ((finalOf ⟨twoFiles, "r", drainAll⟩
        [.walkNext, .walkNext, .handoff 0, .walkNext, .handoff 1]).digs.filter
      DigPc.isReading).length = 2 ∧
    ((finalOf ⟨twoFiles, "r", drainAll⟩
        [.walkNext, .walkNext, .handoff 0, .walkNext, .handoff 1]).digs.filter
      DigPc.isReading).length ≤ numDigesters :=
  ⟨by decide,
    (C9_at_most_numDigesters_reads ⟨twoFiles, "r", drainAll⟩
      [.walkNext, .walkNext, .handoff 0, .walkNext, .handoff 1]
      (finalOf ⟨twoFiles, "r", drainAll⟩
        [.walkNext, .walkNext, .handoff 0, .walkNext, .handoff 1]) (by rfl)).1⟩

/-- C10 (amended). When the walk and every read succeed, two runs on the
same tree with a consumer that never stops early have yielded, once both
iterators have returned, the same pairs up to order. -/
theorem C10_same_pairs_without_errors (k : Call)
    (hw : walkSucceeds k = true) (hr : readsSucceed k = true)
    (hy : ∀ h, k.yield h = true) (ls₁ ls₂ : List Label) (s₁ s₂ : State)
    (h₁ : run k ls₁ = some s₁) (h₂ : run k ls₂ = some s₂)
    (hm₁ : s₁.main = .returned) (hm₂ : s₂.main = .returned) :
    s₁.yields.Perm s₂.yields ∧ ∀ r, r ∈ s₁.yields ↔ r ∈ s₂.yields := by
  have hp : s₁.yields.Perm s₂.yields :=
    (full_drain hw hr hy h₁ hm₁).2.trans (full_drain hw hr hy h₂ hm₂).2.symm
  exact ⟨hp, fun r => hp.mem_iff⟩

theorem C10_witness :
    (finalOf ⟨twoFiles, "r", drainAll⟩ drainTwo).yields ≠
      (finalOf ⟨twoFiles, "r", drainAll⟩ drainTwoSwapped).yields ∧
    (finalOf ⟨twoFiles, "r", drainAll⟩ drainTwo).yields.Perm
      (finalOf ⟨twoFiles, "r", drainAll⟩ drainTwoSwapped).yields :=
  ⟨by decide,
    (C10_same_pairs_without_errors ⟨twoFiles, "r", drainAll⟩ (by decide) (by decide)
      (fun _ => rfl) drainTwo drainTwoSwapped
      (finalOf ⟨twoFiles, "r", drainAll⟩ drainTwo)
      (finalOf ⟨twoFiles, "r", drainAll⟩ drainTwoSwapped)
      (by rfl) (by rfl) (by decide) (by decide)).1⟩

/-- C10 as stated fails: on a tree with an unreadable file, two complete
runs with a consumer that never stops yield different sets of pairs. -/
theorem C10_counterexample :
    (∀ h, drainAll h = true) ∧
    ∃ s₁ s₂ : State,
      run ⟨oneUnreadable, "r", drainAll⟩ failLate = some s₁ ∧
      run ⟨oneUnreadable, "r", drainAll⟩ failEarly = some s₂ ∧
      s₁.main = .returned ∧ s₂.main = .returned ∧
      ¬ (∀ r, r ∈ s₁.yields ↔ r ∈ s₂.yields) := by
  refine ⟨fun _ => rfl, finalOf ⟨oneUnreadable, "r", drainAll⟩ failLate,
    finalOf ⟨oneUnreadable, "r", drainAll⟩ failEarly, by rfl, by rfl, by decide, by decide, ?_⟩
  intro H
  have h1 : (⟨"r/a", [6]⟩ : result) ∈
      (finalOf ⟨oneUnreadable, "r", drainAll⟩ failLate).yields := by decide
  have h2 := (H _).mp h1
  revert h2
  decide

/-- C2. The walk error of a missing root is recorded by the errgroup, but
the caller sees the same as for an empty directory: no pair and a return. -/
theorem C2_error_not_surfaced :
    ∃ s₁ s₂ : State,
      run ⟨missingRoot, "nowhere", drainAll⟩ drainMissing = some s₁ ∧
      run ⟨emptyDir, "nowhere", drainAll⟩ drainNone = some s₂ ∧
      s₁.err = some (.io 2) ∧ s₂.err = none ∧
      observe s₁ = observe s₂ ∧ (observe s₁).finished = true := by
  refine ⟨finalOf ⟨missingRoot, "nowhere", drainAll⟩ drainMissing,
    finalOf ⟨emptyDir, "nowhere", drainAll⟩ drainNone, by rfl, by rfl, by decide, by decide,
    by decide, by decide⟩

theorem record_setCaller (s : State) (e : Option Err) (b : Bool) :
    State.record { s with callerDone := b } e = { s.record e with callerDone := b } := by
  cases e <;> cases h : s.err <;> simp [State.record, h]

theorem allDone_setCaller (s : State) (b : Bool) :
    State.allDone { s with callerDone := b } = s.allDone := rfl

/-- No transition of the pipeline reads or writes the state of the context
passed to `MD5All`. -/
theorem caller_ctx_never_read (k : Call) (l : Label) (s : State) (b : Bool)
    (hl : l.internal = true) :
    step k l { s with callerDone := b } =
      (step k l s).map fun t => { t with callerDone := b } := by
  cases l <;> simp only [step, record_setCaller, allDone_setCaller] <;> first
    | (cases hl; done)
    | (repeat' split) <;> simp_all

/-- C3. No transition of the pipeline depends on the context passed to
`MD5All`; with that context cancelled before anything else happens, the
pipeline context is not cancelled: the file is handed to a digester, read,
delivered and yielded. -/
theorem C3_caller_ctx_ignored :
    (∀ (k : Call) (l : Label) (s : State) (b : Bool), l.internal = true →
      step k l { s with callerDone := b } =
        (step k l s).map fun t => { t with callerDone := b }) ∧
    ∃ s : State,
      run ⟨oneFile, "r", drainAll⟩ cancelledFirst = some s ∧
      s.callerDone = true ∧ s.done = false ∧ s.yields = [⟨"r/a", [6]⟩] := by
  exact ⟨caller_ctx_never_read, finalOf ⟨oneFile, "r", drainAll⟩ cancelledFirst, by rfl,
    by decide, by decide, by decide⟩

/-- C4. After an early stop the iterator has returned while the walker and
all 20 digesters are still running; a return without an early stop (full
drain, walk or read error) does come after all of them have finished. -/
theorem C4_return_before_goroutines_finish :
    (∃ s : State,
      run ⟨oneFile, "r", stopAtFirst⟩ stopEarly = some s ∧
      s.main = .returned ∧ s.allDone = false ∧ s.walker.isExited = false ∧
      s.digs.length = 20 ∧ s.digs.all (fun d => !d.isExited) = true) ∧
    ∀ (k : Call) (ls : List Label) (s : State), run k ls = some s →
      s.main = .returned → stopped k s = false → s.allDone = true := by
  exact ⟨⟨finalOf ⟨oneFile, "r", stopAtFirst⟩ stopEarly, by rfl, by decide, by decide,
    by decide, by decide, by decide⟩, fun k ls s h hm hs => drained (run_allInv h) hm hs⟩
end MD5Pipeline
